import Mathlib

/-!
Verification of the onyx_font text core against its specification.

The definitions below are a shallow embedding of the C++ sources under
src/include/onyx_font/text and src/src/onyx_font/text:

* utf8.cc              - utf8_decode_one and the codepoint iterator
* font_source.cc       - the tagged union over bitmap / stroke / outline assets
* text_rasterizer.cc   - measurement at a fixed pixel size
* glyph_cache.hh       - atlas packing and the codepoint cache
* text_renderer.hh     - draw_baseline and the greedy word wrap
* raster_target.hh     - grayscale and RGBA pixel sinks
* atlas_surface.hh     - memory_atlas and write_alpha

Machine integers are modelled as Nat / Int (bytes are Nat below 256,
C++ int is Int), float arithmetic is modelled as exact rational
arithmetic over Rat, pixel buffers are address-indexed functions, and
the font assets themselves (out of scope per the specification) are
abstract records of query functions.
-/

namespace OnyxFont

def REPLACEMENT_CHAR : Nat := 0xFFFD

def is_continuation (c : Nat) : Bool := c &&& 0xC0 == 0x80

def utf8_val2 (b0 b1 : Nat) : Nat := ((b0 &&& 0x1F) <<< 6) ||| (b1 &&& 0x3F)

def utf8_val3 (b0 b1 b2 : Nat) : Nat :=
  ((b0 &&& 0x0F) <<< 12) ||| ((b1 &&& 0x3F) <<< 6) ||| (b2 &&& 0x3F)

def utf8_val4 (b0 b1 b2 b3 : Nat) : Nat :=
  ((b0 &&& 0x07) <<< 18) ||| ((b1 &&& 0x3F) <<< 12) ||| ((b2 &&& 0x3F) <<< 6) ||| (b3 &&& 0x3F)

/-- Block of utf8_decode_one handling a 2-byte lead (110xxxxx). -/
def utf8_decode_two (first : Nat) : List Nat → Nat × Nat
  | b1 :: _ =>
    if is_continuation b1 then
      if utf8_val2 first b1 < 0x80 then (REPLACEMENT_CHAR, 2) else (utf8_val2 first b1, 2)
    else (REPLACEMENT_CHAR, 1)
  | [] => (REPLACEMENT_CHAR, 1)

/-- Block of utf8_decode_one handling a 3-byte lead (1110xxxx). -/
def utf8_decode_three (first : Nat) : List Nat → Nat × Nat
  | b1 :: b2 :: _ =>
    if is_continuation b1 && is_continuation b2 then
      if utf8_val3 first b1 b2 < 0x800 then (REPLACEMENT_CHAR, 3)
      else if 0xD800 ≤ utf8_val3 first b1 b2 ∧ utf8_val3 first b1 b2 ≤ 0xDFFF then
        (REPLACEMENT_CHAR, 3)
      else (utf8_val3 first b1 b2, 3)
    else (REPLACEMENT_CHAR, 1)
  | _ => (REPLACEMENT_CHAR, 1)

/-- Block of utf8_decode_one handling a 4-byte lead (11110xxx). -/
def utf8_decode_four (first : Nat) : List Nat → Nat × Nat
  | b1 :: b2 :: b3 :: _ =>
    if is_continuation b1 && is_continuation b2 && is_continuation b3 then
      if utf8_val4 first b1 b2 b3 < 0x10000 then (REPLACEMENT_CHAR, 4)
      else if 0x10FFFF < utf8_val4 first b1 b2 b3 then (REPLACEMENT_CHAR, 4)
      else (utf8_val4 first b1 b2 b3, 4)
    else (REPLACEMENT_CHAR, 1)
  | _ => (REPLACEMENT_CHAR, 1)

/-- Shallow embedding of utf8_decode_one (src/src/onyx_font/text/utf8.cc).
The C++ length guards (len < 2 and so on) become pattern matches on the
byte list; the result is the pair (codepoint, bytes_consumed). -/
def utf8_decode_one : List Nat → Nat × Nat
  | [] => (REPLACEMENT_CHAR, 0)
  | first :: rest =>
    if first < 0x80 then (first, 1)
    else if is_continuation first then (REPLACEMENT_CHAR, 1)
    else if 0xF8 ≤ first then (REPLACEMENT_CHAR, 1)
    else if first &&& 0xE0 == 0xC0 then utf8_decode_two first rest
    else if first &&& 0xF0 == 0xE0 then utf8_decode_three first rest
    else if first &&& 0xF8 == 0xF0 then utf8_decode_four first rest
    else (REPLACEMENT_CHAR, 1)

theorem utf8_decode_two_cases (first : Nat) (rest : List Nat) :
    1 ≤ (utf8_decode_two first rest).2 ∧ (utf8_decode_two first rest).2 ≤ 1 + rest.length ∧
      (utf8_decode_two first rest).2 ≤ 2 := by
  rcases rest with _ | ⟨b1, t⟩ <;> simp only [utf8_decode_two, List.length] <;>
    (repeat' split) <;> simp <;> omega

theorem utf8_decode_three_cases (first : Nat) (rest : List Nat) :
    1 ≤ (utf8_decode_three first rest).2 ∧ (utf8_decode_three first rest).2 ≤ 1 + rest.length ∧
      (utf8_decode_three first rest).2 ≤ 3 := by
  rcases rest with _ | ⟨b1, _ | ⟨b2, t⟩⟩ <;> simp only [utf8_decode_three, List.length] <;>
    (repeat' split) <;> simp <;> omega

theorem utf8_decode_four_cases (first : Nat) (rest : List Nat) :
    1 ≤ (utf8_decode_four first rest).2 ∧ (utf8_decode_four first rest).2 ≤ 1 + rest.length ∧
      (utf8_decode_four first rest).2 ≤ 4 := by
  rcases rest with _ | ⟨b1, _ | ⟨b2, _ | ⟨b3, t⟩⟩⟩ <;> simp only [utf8_decode_four, List.length] <;>
    (repeat' split) <;> simp <;> omega

/-- Bytes consumed by one decode step never exceed the input length. -/
theorem utf8_decode_consumed_le (l : List Nat) : (utf8_decode_one l).2 ≤ l.length := by
  rcases l with _ | ⟨a, rest⟩
  · simp [utf8_decode_one]
  · have h2 := utf8_decode_two_cases a rest
    have h3 := utf8_decode_three_cases a rest
    have h4 := utf8_decode_four_cases a rest
    simp only [utf8_decode_one, List.length]
    split_ifs <;> simp <;> omega

/-- A nonempty input always consumes at least one byte. -/
theorem utf8_decode_pos (l : List Nat) (h : l ≠ []) : 1 ≤ (utf8_decode_one l).2 := by
  rcases l with _ | ⟨a, rest⟩
  · simp at h
  · have h2 := utf8_decode_two_cases a rest
    have h3 := utf8_decode_three_cases a rest
    have h4 := utf8_decode_four_cases a rest
    simp only [utf8_decode_one]
    split_ifs <;> simp <;> omega

theorem utf8_decode_two_take (first : Nat) (rest : List Nat) (k : Nat)
    (h : (utf8_decode_two first rest).2 ≤ k + 1) :
    utf8_decode_two first (rest.take k) = utf8_decode_two first rest := by
  rcases rest with _ | ⟨b1, t⟩ <;> rcases k with _ | k <;>
    simp only [utf8_decode_two, List.take] at h ⊢ <;>
    (repeat' split at h) <;> (repeat' split) <;> simp_all <;> omega

theorem utf8_decode_three_take (first : Nat) (rest : List Nat) (k : Nat)
    (h : (utf8_decode_three first rest).2 ≤ k + 1) :
    utf8_decode_three first (rest.take k) = utf8_decode_three first rest := by
  rcases rest with _ | ⟨b1, _ | ⟨b2, t⟩⟩ <;> rcases k with _ | _ | k <;>
    simp only [utf8_decode_three, List.take] at h ⊢ <;>
    (repeat' split at h) <;> (repeat' split) <;> simp_all <;> omega

theorem utf8_decode_four_take (first : Nat) (rest : List Nat) (k : Nat)
    (h : (utf8_decode_four first rest).2 ≤ k + 1) :
    utf8_decode_four first (rest.take k) = utf8_decode_four first rest := by
  rcases rest with _ | ⟨b1, _ | ⟨b2, _ | ⟨b3, t⟩⟩⟩ <;> rcases k with _ | _ | _ | k <;>
    simp only [utf8_decode_four, List.take] at h ⊢ <;>
    (repeat' split at h) <;> (repeat' split) <;> simp_all <;> omega

/-- Truncating the input beyond the consumed bytes does not change the
decode result: each produced line of text re-decodes as it did in context. -/
theorem utf8_decode_take (l : List Nat) (k : Nat) (h : (utf8_decode_one l).2 ≤ k) :
    utf8_decode_one (l.take k) = utf8_decode_one l := by
  rcases l with _ | ⟨a, rest⟩
  · simp
  · rcases k with _ | k
    · exact absurd (utf8_decode_pos (a :: rest) (by simp)) (by omega)
    · simp only [utf8_decode_one, List.take] at h ⊢
      split_ifs at h ⊢ <;>
        first
          | rfl
          | (apply utf8_decode_two_take; omega)
          | (apply utf8_decode_three_take; omega)
          | (apply utf8_decode_four_take; omega)

theorem cont_ge (c : Nat) (h : is_continuation c = true) : 0x80 ≤ c := by
  have h2 : c &&& 0xC0 = 0x80 := by simpa [is_continuation] using h
  calc (0x80 : Nat) = c &&& 0xC0 := h2.symm
    _ ≤ c := Nat.and_le_left

theorem utf8_decode_two_byte (first : Nat) (rest : List Nat) (i : Nat)
    (hf : 0x80 ≤ first) (hi : i < (utf8_decode_two first rest).2) :
    0x80 ≤ (first :: rest).getD i 0 := by
  rcases rest with _ | ⟨b1, t⟩
  · simp only [utf8_decode_two] at hi
    interval_cases i
    simpa using hf
  · simp only [utf8_decode_two] at hi
    split at hi
    case isTrue hc =>
      have hb1 := cont_ge b1 hc
      split at hi <;> interval_cases i <;> simp_all
    case isFalse =>
      interval_cases i
      simpa using hf

theorem utf8_decode_three_byte (first : Nat) (rest : List Nat) (i : Nat)
    (hf : 0x80 ≤ first) (hi : i < (utf8_decode_three first rest).2) :
    0x80 ≤ (first :: rest).getD i 0 := by
  rcases rest with _ | ⟨b1, _ | ⟨b2, t⟩⟩
  · simp only [utf8_decode_three] at hi
    interval_cases i
    simpa using hf
  · simp only [utf8_decode_three] at hi
    interval_cases i <;> simp_all
  · simp only [utf8_decode_three] at hi
    split at hi
    case isTrue hc =>
      rw [Bool.and_eq_true] at hc
      have hb1 := cont_ge b1 hc.1
      have hb2 := cont_ge b2 hc.2
      (repeat' split at hi) <;> interval_cases i <;> simp_all
    case isFalse =>
      interval_cases i
      simpa using hf

theorem utf8_decode_four_byte (first : Nat) (rest : List Nat) (i : Nat)
    (hf : 0x80 ≤ first) (hi : i < (utf8_decode_four first rest).2) :
    0x80 ≤ (first :: rest).getD i 0 := by
  rcases rest with _ | ⟨b1, _ | ⟨b2, _ | ⟨b3, t⟩⟩⟩
  · simp only [utf8_decode_four] at hi
    interval_cases i
    simpa using hf
  · simp only [utf8_decode_four] at hi
    interval_cases i <;> simp_all
  · simp only [utf8_decode_four] at hi
    interval_cases i <;> simp_all
  · simp only [utf8_decode_four] at hi
    split at hi
    case isTrue hc =>
      rw [Bool.and_eq_true, Bool.and_eq_true] at hc
      have hb1 := cont_ge b1 hc.1.1
      have hb2 := cont_ge b2 hc.1.2
      have hb3 := cont_ge b3 hc.2
      (repeat' split at hi) <;> interval_cases i <;> simp_all
    case isFalse =>
      interval_cases i
      simpa using hf

/-- Codepoints produced by the multi-byte blocks are always at or above 0x80
(either a real scalar in range or the replacement character). -/
theorem utf8_decode_two_fst (first : Nat) (rest : List Nat) :
    0x80 ≤ (utf8_decode_two first rest).1 := by
  rcases rest with _ | ⟨b1, t⟩ <;> simp only [utf8_decode_two] <;> (repeat' split) <;>
    simp [REPLACEMENT_CHAR] <;> omega

theorem utf8_decode_three_fst (first : Nat) (rest : List Nat) :
    0x80 ≤ (utf8_decode_three first rest).1 := by
  rcases rest with _ | ⟨b1, _ | ⟨b2, t⟩⟩ <;> simp only [utf8_decode_three] <;> (repeat' split) <;>
    simp [REPLACEMENT_CHAR] <;> omega

theorem utf8_decode_four_fst (first : Nat) (rest : List Nat) :
    0x80 ≤ (utf8_decode_four first rest).1 := by
  rcases rest with _ | ⟨b1, _ | ⟨b2, _ | ⟨b3, t⟩⟩⟩ <;> simp only [utf8_decode_four] <;>
    (repeat' split) <;> simp [REPLACEMENT_CHAR] <;> omega

/-- Every byte consumed by one decode step is either a plain ASCII byte that
is itself the decoded codepoint, or a byte at or above 0x80. -/
theorem utf8_decode_byte_mem (l : List Nat) (i : Nat) (hi : i < (utf8_decode_one l).2) :
    ((utf8_decode_one l).2 = 1 ∧ (utf8_decode_one l).1 = l.getD 0 0 ∧ l.getD 0 0 < 0x80) ∨
      0x80 ≤ l.getD i 0 := by
  rcases l with _ | ⟨a, rest⟩
  · simp [utf8_decode_one] at hi
  · simp only [utf8_decode_one] at hi ⊢
    split_ifs at hi ⊢ with h1 h2 h3 h4 h5 h6
    · left
      exact ⟨rfl, by simp, by simpa using h1⟩
    · right
      have h0 : i = 0 := by simpa using hi
      subst h0
      simp only [List.getD_cons_zero]
      omega
    · right
      have h0 : i = 0 := by simpa using hi
      subst h0
      simp only [List.getD_cons_zero]
      omega
    · exact Or.inr (utf8_decode_two_byte a rest i (by omega) hi)
    · exact Or.inr (utf8_decode_three_byte a rest i (by omega) hi)
    · exact Or.inr (utf8_decode_four_byte a rest i (by omega) hi)
    · right
      have h0 : i = 0 := by simpa using hi
      subst h0
      simp only [List.getD_cons_zero]
      omega

/-- A decode step that produces an ASCII codepoint consumed exactly the one
byte equal to that codepoint. -/
theorem utf8_decode_ascii (l : List Nat) (hcp : (utf8_decode_one l).1 < 0x80) (hne : l ≠ []) :
    (utf8_decode_one l).2 = 1 ∧ l.getD 0 0 = (utf8_decode_one l).1 := by
  rcases l with _ | ⟨a, rest⟩
  · simp at hne
  · have t2 := utf8_decode_two_fst a rest
    have t3 := utf8_decode_three_fst a rest
    have t4 := utf8_decode_four_fst a rest
    simp only [utf8_decode_one] at hcp ⊢
    split_ifs at hcp ⊢ <;>
      first
        | (exfalso; simp [REPLACEMENT_CHAR] at hcp; done)
        | (exfalso; omega)
        | exact ⟨rfl, by simp⟩

set_option maxRecDepth 10000 in
theorem mask_cont : ∀ b < 256, ((b &&& 0xC0 == 0x80) = true ↔ 0x80 ≤ b ∧ b < 0xC0) := by decide

set_option maxRecDepth 10000 in
theorem mask_lead2 : ∀ b < 256, ((b &&& 0xE0 == 0xC0) = true ↔ 0xC0 ≤ b ∧ b < 0xE0) := by decide

set_option maxRecDepth 10000 in
theorem mask_lead3 : ∀ b < 256, ((b &&& 0xF0 == 0xE0) = true ↔ 0xE0 ≤ b ∧ b < 0xF0) := by decide

set_option maxRecDepth 10000 in
theorem mask_lead4 : ∀ b < 256, ((b &&& 0xF8 == 0xF0) = true ↔ 0xF0 ≤ b ∧ b < 0xF8) := by decide

theorem cont_of_range (b : Nat) (hb : b < 256) (h1 : 0x80 ≤ b) (h2 : b < 0xC0) :
    is_continuation b = true := (mask_cont b hb).mpr ⟨h1, h2⟩

theorem not_cont_of_range (b : Nat) (hb : b < 256) (h : ¬(0x80 ≤ b ∧ b < 0xC0)) :
    ¬is_continuation b = true := fun hc => h ((mask_cont b hb).mp hc)

/-- C3 (amended): structurally invalid sequences consume one byte; well-formed
but overlong, surrogate, or out-of-range sequences consume the full sequence
length; the decoded codepoint is always U+FFFD. -/
theorem utf8_invalid_consumption :
    (∀ b0 rest, b0 < 256 → 0x80 ≤ b0 → b0 < 0xC0 →
      utf8_decode_one (b0 :: rest) = (REPLACEMENT_CHAR, 1)) ∧
    (∀ b0 rest, 0xF8 ≤ b0 →
      utf8_decode_one (b0 :: rest) = (REPLACEMENT_CHAR, 1)) ∧
    (∀ b0, b0 < 256 → 0xC0 ≤ b0 → b0 < 0xE0 →
      utf8_decode_one [b0] = (REPLACEMENT_CHAR, 1)) ∧
    (∀ b0 b1 rest, b0 < 256 → b1 < 256 → 0xC0 ≤ b0 → b0 < 0xE0 →
      ¬(0x80 ≤ b1 ∧ b1 < 0xC0) →
      utf8_decode_one (b0 :: b1 :: rest) = (REPLACEMENT_CHAR, 1)) ∧
    (∀ b0 b1 rest, b0 < 256 → b1 < 256 → 0xC0 ≤ b0 → b0 < 0xE0 →
      0x80 ≤ b1 → b1 < 0xC0 → utf8_val2 b0 b1 < 0x80 →
      utf8_decode_one (b0 :: b1 :: rest) = (REPLACEMENT_CHAR, 2)) ∧
    (∀ b0 b1, b0 < 256 → 0xE0 ≤ b0 → b0 < 0xF0 →
      utf8_decode_one [b0] = (REPLACEMENT_CHAR, 1) ∧
      utf8_decode_one [b0, b1] = (REPLACEMENT_CHAR, 1)) ∧
    (∀ b0 b1 b2 rest, b0 < 256 → b1 < 256 → b2 < 256 → 0xE0 ≤ b0 → b0 < 0xF0 →
      (¬(0x80 ≤ b1 ∧ b1 < 0xC0) ∨ ¬(0x80 ≤ b2 ∧ b2 < 0xC0)) →
      utf8_decode_one (b0 :: b1 :: b2 :: rest) = (REPLACEMENT_CHAR, 1)) ∧
    (∀ b0 b1 b2 rest, b0 < 256 → b1 < 256 → b2 < 256 → 0xE0 ≤ b0 → b0 < 0xF0 →
      0x80 ≤ b1 → b1 < 0xC0 → 0x80 ≤ b2 → b2 < 0xC0 →
      (utf8_val3 b0 b1 b2 < 0x800 ∨
        (0xD800 ≤ utf8_val3 b0 b1 b2 ∧ utf8_val3 b0 b1 b2 ≤ 0xDFFF)) →
      utf8_decode_one (b0 :: b1 :: b2 :: rest) = (REPLACEMENT_CHAR, 3)) ∧
    (∀ b0 b1 b2, b0 < 256 → 0xF0 ≤ b0 → b0 < 0xF8 →
      utf8_decode_one [b0] = (REPLACEMENT_CHAR, 1) ∧
      utf8_decode_one [b0, b1] = (REPLACEMENT_CHAR, 1) ∧
      utf8_decode_one [b0, b1, b2] = (REPLACEMENT_CHAR, 1)) ∧
    (∀ b0 b1 b2 b3 rest, b0 < 256 → b1 < 256 → b2 < 256 → b3 < 256 → 0xF0 ≤ b0 → b0 < 0xF8 →
      (¬(0x80 ≤ b1 ∧ b1 < 0xC0) ∨ ¬(0x80 ≤ b2 ∧ b2 < 0xC0) ∨ ¬(0x80 ≤ b3 ∧ b3 < 0xC0)) →
      utf8_decode_one (b0 :: b1 :: b2 :: b3 :: rest) = (REPLACEMENT_CHAR, 1)) ∧
    (∀ b0 b1 b2 b3 rest, b0 < 256 → b1 < 256 → b2 < 256 → b3 < 256 → 0xF0 ≤ b0 → b0 < 0xF8 →
      0x80 ≤ b1 → b1 < 0xC0 → 0x80 ≤ b2 → b2 < 0xC0 → 0x80 ≤ b3 → b3 < 0xC0 →
      (utf8_val4 b0 b1 b2 b3 < 0x10000 ∨ 0x10FFFF < utf8_val4 b0 b1 b2 b3) →
      utf8_decode_one (b0 :: b1 :: b2 :: b3 :: rest) = (REPLACEMENT_CHAR, 4)) := by
  have hb2 : ∀ b0 : Nat, b0 < 256 → 0xC0 ≤ b0 → b0 < 0xE0 →
      ∀ rest, utf8_decode_one (b0 :: rest) = utf8_decode_two b0 rest := by
    intro b0 h0 h1 h2 rest
    simp only [utf8_decode_one]
    rw [if_neg (by omega), if_neg (not_cont_of_range b0 h0 (by omega)), if_neg (by omega),
      if_pos ((mask_lead2 b0 h0).mpr ⟨h1, h2⟩)]
  have hb3 : ∀ b0 : Nat, b0 < 256 → 0xE0 ≤ b0 → b0 < 0xF0 →
      ∀ rest, utf8_decode_one (b0 :: rest) = utf8_decode_three b0 rest := by
    intro b0 h0 h1 h2 rest
    simp only [utf8_decode_one]
    rw [if_neg (by omega), if_neg (not_cont_of_range b0 h0 (by omega)), if_neg (by omega),
      if_neg (fun hc => by have := (mask_lead2 b0 h0).mp hc; omega),
      if_pos ((mask_lead3 b0 h0).mpr ⟨h1, h2⟩)]
  have hb4 : ∀ b0 : Nat, b0 < 256 → 0xF0 ≤ b0 → b0 < 0xF8 →
      ∀ rest, utf8_decode_one (b0 :: rest) = utf8_decode_four b0 rest := by
    intro b0 h0 h1 h2 rest
    simp only [utf8_decode_one]
    rw [if_neg (by omega), if_neg (not_cont_of_range b0 h0 (by omega)), if_neg (by omega),
      if_neg (fun hc => by have := (mask_lead2 b0 h0).mp hc; omega),
      if_neg (fun hc => by have := (mask_lead3 b0 h0).mp hc; omega),
      if_pos ((mask_lead4 b0 h0).mpr ⟨h1, h2⟩)]
  refine ⟨?_, ?_, ?_, ?_, ?_, ?_, ?_, ?_, ?_, ?_, ?_⟩
  · intro b0 rest h0 h1 h2
    simp only [utf8_decode_one]
    rw [if_neg (by omega), if_pos (cont_of_range b0 h0 h1 h2)]
  · intro b0 rest h1
    simp only [utf8_decode_one]
    rw [if_neg (by omega)]
    by_cases hc : is_continuation b0 = true
    · rw [if_pos hc]
    · rw [if_neg hc, if_pos (by omega)]
  · intro b0 h0 h1 h2
    rw [hb2 b0 h0 h1 h2]
    rfl
  · intro b0 b1 rest h0 hb1 h1 h2 hnc
    rw [hb2 b0 h0 h1 h2]
    simp only [utf8_decode_two]
    rw [if_neg (not_cont_of_range b1 hb1 hnc)]
  · intro b0 b1 rest h0 hb1 h1 h2 hc1 hc2 hval
    rw [hb2 b0 h0 h1 h2]
    simp only [utf8_decode_two]
    rw [if_pos (cont_of_range b1 hb1 hc1 hc2), if_pos hval]
  · intro b0 b1 h0 h1 h2
    exact ⟨by rw [hb3 b0 h0 h1 h2]; rfl, by rw [hb3 b0 h0 h1 h2]; rfl⟩
  · intro b0 b1 b2 rest h0 hb1 hc2 h1 h2 hnc
    rw [hb3 b0 h0 h1 h2]
    simp only [utf8_decode_three]
    rw [if_neg]
    rw [Bool.and_eq_true]
    rcases hnc with hnc | hnc
    · exact fun hh => (not_cont_of_range b1 hb1 hnc) hh.1
    · exact fun hh => (not_cont_of_range b2 hc2 hnc) hh.2
  · intro b0 b1 b2 rest h0 hb1 hc2 h1 h2 hr1 hr2 hr3 hr4 hval
    rw [hb3 b0 h0 h1 h2]
    simp only [utf8_decode_three]
    rw [if_pos (by rw [Bool.and_eq_true]
                   exact ⟨cont_of_range b1 hb1 hr1 hr2, cont_of_range b2 hc2 hr3 hr4⟩)]
    rcases hval with hval | hval
    · rw [if_pos hval]
    · rw [if_neg (by omega), if_pos hval]
  · intro b0 b1 b2 h0 h1 h2
    refine ⟨by rw [hb4 b0 h0 h1 h2]; rfl, by rw [hb4 b0 h0 h1 h2]; rfl,
      by rw [hb4 b0 h0 h1 h2]; rfl⟩
  · intro b0 b1 b2 b3 rest h0 hb1 hc2 hd3 h1 h2 hnc
    rw [hb4 b0 h0 h1 h2]
    simp only [utf8_decode_four]
    rw [if_neg]
    rw [Bool.and_eq_true, Bool.and_eq_true]
    rcases hnc with hnc | hnc | hnc
    · exact fun hh => (not_cont_of_range b1 hb1 hnc) hh.1.1
    · exact fun hh => (not_cont_of_range b2 hc2 hnc) hh.1.2
    · exact fun hh => (not_cont_of_range b3 hd3 hnc) hh.2
  · intro b0 b1 b2 b3 rest h0 hb1 hc2 hd3 h1 h2 hr1 hr2 hr3 hr4 hr5 hr6 hval
    rw [hb4 b0 h0 h1 h2]
    simp only [utf8_decode_four]
    rw [if_pos (by rw [Bool.and_eq_true, Bool.and_eq_true]
                   exact ⟨⟨cont_of_range b1 hb1 hr1 hr2, cont_of_range b2 hc2 hr3 hr4⟩,
                     cont_of_range b3 hd3 hr5 hr6⟩)]
    rcases hval with hval | hval
    · rw [if_pos hval]
    · rw [if_neg (by omega), if_pos hval]

/-- Witness for C3 (amended): the surrogate encoding ED A0 80 decodes to
(U+FFFD, 3), consuming the full three-byte sequence. -/
theorem utf8_invalid_consumption_witness :
    utf8_decode_one [0xED, 0xA0, 0x80] = (REPLACEMENT_CHAR, 3) :=
  utf8_invalid_consumption.2.2.2.2.2.2.2.1 0xED 0xA0 0x80 [] (by decide) (by decide) (by decide)
    (by decide) (by decide) (by decide) (by decide) (by decide) (by decide)
    (Or.inr (by decide))

/-- Counterexample to C3 as stated: the overlong two-byte sequence C0 AF
consumes two bytes, not one. -/
theorem utf8_overlong_counterexample :
    utf8_val2 0xC0 0xAF < 0x80 ∧ utf8_decode_one [0xC0, 0xAF] = (REPLACEMENT_CHAR, 2) := by
  decide

/-- C4: decoding a non-empty byte sequence always consumes at least one byte,
and the empty sequence decodes to (U+FFFD, 0). -/
theorem utf8_decode_progress (bs : List Nat) :
    (bs ≠ [] → 1 ≤ (utf8_decode_one bs).2) ∧ utf8_decode_one [] = (REPLACEMENT_CHAR, 0) :=
  ⟨fun h => utf8_decode_pos bs h, rfl⟩

/-- Witness for C4 at the one-byte input 0x41. -/
theorem utf8_decode_progress_witness :
    ([0x41] : List Nat) ≠ [] ∧ 1 ≤ (utf8_decode_one [0x41]).2 :=
  ⟨by decide, (utf8_decode_progress [0x41]).1 (by decide)⟩

/-! Raster targets (src/include/onyx_font/text/raster_target.hh). Pixel
buffers are modelled as total functions from flat addresses to stored
values; an out-of-bounds write leaves the buffer unchanged exactly as the
C++ bounds guards drop it. -/

/-- Overwrite grayscale target (raster_target.hh, class grayscale_target). -/
@[ext]
structure grayscale_target where
  m_buffer : Int → Nat
  m_width : Int
  m_height : Int
  m_stride : Int

/-- Embedding of grayscale_target::put_pixel: direct store after the bounds
check, at flat address y * stride + x. -/
def grayscale_target.put_pixel (t : grayscale_target) (x y : Int) (alpha : Nat) :
    grayscale_target :=
  if 0 ≤ x ∧ x < t.m_width ∧ 0 ≤ y ∧ y < t.m_height then
    { t with m_buffer := fun a => if a = y * t.m_stride + x then alpha else t.m_buffer a }
  else t

/-- Embedding of grayscale_target::put_span: the clipped memcpy writes the
addresses y * stride + x0 .. y * stride + x1 - 1 from the source array
offset by x0 - x. -/
def grayscale_target.put_span (t : grayscale_target) (x y : Int) (alphas : Int → Nat)
    (count : Int) : grayscale_target :=
  if y < 0 ∨ t.m_height ≤ y then t
  else if max 0 x < min t.m_width (x + count) then
    { t with m_buffer := fun a =>
        if y * t.m_stride + max 0 x ≤ a ∧ a < y * t.m_stride + min t.m_width (x + count) then
          alphas (a - y * t.m_stride - x)
        else t.m_buffer a }
  else t

/-- Reference per-pixel path of the claim: put_pixel (x + i) y (alphas i) for
each i from 0 to n - 1 in order. -/
def grayscale_target.put_pixel_seq (t : grayscale_target) (x y : Int) (alphas : Int → Nat) :
    Nat → grayscale_target
  | 0 => t
  | n + 1 => (grayscale_target.put_pixel_seq t x y alphas n).put_pixel (x + n) y (alphas n)

theorem grayscale_target.put_pixel_fields (t : grayscale_target) (x y : Int) (alpha : Nat) :
    (t.put_pixel x y alpha).m_width = t.m_width ∧
      (t.put_pixel x y alpha).m_height = t.m_height ∧
      (t.put_pixel x y alpha).m_stride = t.m_stride := by
  unfold grayscale_target.put_pixel
  split <;> simp

theorem grayscale_target.put_pixel_seq_fields (t : grayscale_target) (x y : Int)
    (alphas : Int → Nat) (n : Nat) :
    (t.put_pixel_seq x y alphas n).m_width = t.m_width ∧
      (t.put_pixel_seq x y alphas n).m_height = t.m_height ∧
      (t.put_pixel_seq x y alphas n).m_stride = t.m_stride := by
  induction n with
  | zero => exact ⟨rfl, rfl, rfl⟩
  | succ n ih =>
    have hp := grayscale_target.put_pixel_fields (t.put_pixel_seq x y alphas n)
      (x + n) y (alphas n)
    exact ⟨hp.1.trans ih.1, hp.2.1.trans ih.2.1, hp.2.2.trans ih.2.2⟩

theorem grayscale_target.put_pixel_seq_buffer (t : grayscale_target) (x y : Int)
    (alphas : Int → Nat) (n : Nat) (a : Int) :
    (t.put_pixel_seq x y alphas n).m_buffer a =
      if 0 ≤ y ∧ y < t.m_height ∧ max 0 x ≤ a - y * t.m_stride ∧
          a - y * t.m_stride < min t.m_width (x + n) then
        alphas (a - y * t.m_stride - x)
      else t.m_buffer a := by
  induction n with
  | zero =>
    rw [if_neg (by omega)]
    rfl
  | succ n ih =>
    have hf := grayscale_target.put_pixel_seq_fields t x y alphas n
    show ((t.put_pixel_seq x y alphas n).put_pixel (x + n) y (alphas n)).m_buffer a = _
    rw [grayscale_target.put_pixel, hf.1, hf.2.1, hf.2.2]
    split
    case isTrue hg =>
      simp only []
      by_cases ha : a = y * t.m_stride + (x + n)
      · rw [if_pos ha, if_pos (by push_cast; omega)]
        congr 1
        omega
      · rw [if_neg ha, ih]
        by_cases hc : 0 ≤ y ∧ y < t.m_height ∧ max 0 x ≤ a - y * t.m_stride ∧
            a - y * t.m_stride < min t.m_width (x + n)
        · rw [if_pos hc, if_pos (by push_cast at hc ⊢; omega)]
        · rw [if_neg hc, if_neg (by push_cast at hc ⊢; omega)]
    case isFalse hg =>
      rw [ih]
      by_cases hc : 0 ≤ y ∧ y < t.m_height ∧ max 0 x ≤ a - y * t.m_stride ∧
          a - y * t.m_stride < min t.m_width (x + n)
      · rw [if_pos hc, if_pos (by push_cast at hc ⊢; omega)]
      · rw [if_neg hc, if_neg (by push_cast at hc ⊢; omega)]

/-- C10: for the overwrite grayscale target, put_span leaves the buffer in
exactly the state produced by calling put_pixel (x + i) y (alphas i) for each
i from 0 to count - 1: the span fast path clips to the same in-bounds pixels
and writes the same values, zero values included. -/
theorem grayscale_put_span_eq_put_pixel (t : grayscale_target) (x y : Int)
    (alphas : Int → Nat) (count : Int) :
    t.put_span x y alphas count = t.put_pixel_seq x y alphas count.toNat := by
  have hf := grayscale_target.put_pixel_seq_fields t x y alphas count.toNat
  have hcnt : (count.toNat : Int) = max count 0 := Int.ofNat_toNat count
  apply grayscale_target.ext
  case m_width => rw [hf.1, grayscale_target.put_span]; split <;> [rfl; split <;> rfl]
  case m_height => rw [hf.2.1, grayscale_target.put_span]; split <;> [rfl; split <;> rfl]
  case m_stride => rw [hf.2.2, grayscale_target.put_span]; split <;> [rfl; split <;> rfl]
  case m_buffer =>
    funext a
    rw [grayscale_target.put_pixel_seq_buffer, grayscale_target.put_span]
    split
    case isTrue hy => rw [if_neg (by omega)]
    case isFalse hy =>
      split
      case isTrue hx =>
        simp only []
        by_cases hc : y * t.m_stride + max 0 x ≤ a ∧ a < y * t.m_stride + min t.m_width (x + count)
        · rw [if_pos hc, if_pos (by push_cast; omega)]
        · rw [if_neg hc, if_neg (by push_cast; omega)]
      case isFalse hx =>
        rw [if_neg (by push_cast; omega)]

/-- Color-blend RGBA target (raster_target.hh, class rgba_blend_target).
Pixels are 32-bit ARGB words stored at flat address y * width + x; the
color fields are the uint8 components of the text color. -/
structure rgba_blend_target where
  m_buffer : Int → Nat
  m_width : Int
  m_height : Int
  m_color_r : Nat
  m_color_g : Nat
  m_color_b : Nat

/-- Channel extraction exactly as rgba_blend_target::put_pixel performs it:
(word >> shift) & 0xFF. -/
def rgba_channel (p : Nat) (shift : Nat) : Nat := (p >>> shift) &&& 0xFF

/-- Embedding of rgba_blend_target::put_pixel: Porter-Duff over with +127
rounding, a direct write at alpha 255, and a no-op at alpha 0 or out of
bounds. Arithmetic is on naturals; the C++ uint32 operations never wrap
because every intermediate is at most 255 * 255 + 127. -/
def rgba_blend_target.put_pixel (t : rgba_blend_target) (x y : Int) (alpha : Nat) :
    rgba_blend_target :=
  if 0 ≤ x ∧ x < t.m_width ∧ 0 ≤ y ∧ y < t.m_height ∧ 0 < alpha then
    if alpha = 255 then
      { t with m_buffer := fun a =>
          if a = y * t.m_width + x then
            (255 <<< 24) ||| (t.m_color_r <<< 16) ||| (t.m_color_g <<< 8) ||| t.m_color_b
          else t.m_buffer a }
    else
      { t with m_buffer := fun a =>
          if a = y * t.m_width + x then
            ((alpha + (rgba_channel (t.m_buffer (y * t.m_width + x)) 24 * (255 - alpha) + 127) / 255)
                <<< 24) |||
              (((t.m_color_r * alpha +
                  rgba_channel (t.m_buffer (y * t.m_width + x)) 16 * (255 - alpha) + 127) / 255)
                <<< 16) |||
              (((t.m_color_g * alpha +
                  rgba_channel (t.m_buffer (y * t.m_width + x)) 8 * (255 - alpha) + 127) / 255)
                <<< 8) |||
              ((t.m_color_b * alpha +
                  rgba_channel (t.m_buffer (y * t.m_width + x)) 0 * (255 - alpha) + 127) / 255)
          else t.m_buffer a }
  else t

/-- Disjoint bit ranges: or-ing a shifted word with a value below the shift
is addition. -/
theorem lor_shift_add (n hi lo : Nat) (h : lo < 2 ^ n) :
    (hi <<< n) ||| lo = hi <<< n + lo := by
  apply Nat.eq_of_testBit_eq
  intro i
  rw [Nat.testBit_lor, Nat.testBit_shiftLeft]
  rcases lt_or_le i n with hin | hin
  · have hs : Nat.testBit (hi <<< n + lo) i = Nat.testBit lo i := by
      rw [Nat.shiftLeft_eq, Nat.testBit_to_div_mod, Nat.testBit_to_div_mod]
      have e0 : 2 ^ i * (2 * (hi * 2 ^ (n - i - 1))) = hi * 2 ^ (i + 1 + (n - i - 1)) := by
        rw [pow_add, pow_add]
        ring
      rw [show i + 1 + (n - i - 1) = n from by omega] at e0
      have e1 : hi * 2 ^ n + lo = lo + 2 ^ i * (2 * (hi * 2 ^ (n - i - 1))) := by omega
      rw [e1, Nat.add_mul_div_left _ _ (Nat.two_pow_pos i), Nat.add_mul_mod_self_left]
    rw [hs]
    simp [show ¬ i ≥ n by omega]
  · have hlo : Nat.testBit lo i = false :=
      Nat.testBit_lt_two_pow (lt_of_lt_of_le h (Nat.pow_le_pow_right (by norm_num) hin))
    have hs : Nat.testBit (hi <<< n + lo) i = Nat.testBit hi (i - n) := by
      rw [Nat.shiftLeft_eq, Nat.testBit_to_div_mod, Nat.testBit_to_div_mod]
      have e1 : (hi * 2 ^ n + lo) / 2 ^ i = hi / 2 ^ (i - n) := by
        rw [show (2 : Nat) ^ i = 2 ^ n * 2 ^ (i - n) by rw [← pow_add]; congr 1; omega,
          ← Nat.div_div_eq_div_mul]
        congr 1
        rw [Nat.add_comm, Nat.add_mul_div_right _ _ (Nat.two_pow_pos n), Nat.div_eq_of_lt h]
        omega
      rw [e1]
    rw [hs, hlo]
    simp [show i ≥ n from hin]

/-- Packing four bytes into an ARGB word and reading a channel back. -/
theorem rgba_pack_channels (a r g b : Nat) (ha : a < 256) (hr : r < 256) (hg : g < 256)
    (hb : b < 256) :
    rgba_channel ((a <<< 24) ||| (r <<< 16) ||| (g <<< 8) ||| b) 24 = a ∧
      rgba_channel ((a <<< 24) ||| (r <<< 16) ||| (g <<< 8) ||| b) 16 = r ∧
      rgba_channel ((a <<< 24) ||| (r <<< 16) ||| (g <<< 8) ||| b) 8 = g ∧
      rgba_channel ((a <<< 24) ||| (r <<< 16) ||| (g <<< 8) ||| b) 0 = b := by
  have e1 : (g <<< 8) ||| b = g <<< 8 + b := lor_shift_add 8 g b (by norm_num; omega)
  have e2 : (r <<< 16) ||| ((g <<< 8) ||| b) = r <<< 16 + (g <<< 8 + b) := by
    rw [e1]
    exact lor_shift_add 16 r _ (by rw [Nat.shiftLeft_eq]; norm_num; omega)
  have e3 : (a <<< 24) ||| ((r <<< 16) ||| ((g <<< 8) ||| b)) =
      a <<< 24 + (r <<< 16 + (g <<< 8 + b)) := by
    rw [e2]
    exact lor_shift_add 24 a _ (by rw [Nat.shiftLeft_eq, Nat.shiftLeft_eq]; norm_num; omega)
  have e4 : (a <<< 24) ||| (r <<< 16) ||| (g <<< 8) ||| b =
      a * 2 ^ 24 + r * 2 ^ 16 + g * 2 ^ 8 + b := by
    rw [Nat.lor_assoc, Nat.lor_assoc, e3, Nat.shiftLeft_eq, Nat.shiftLeft_eq, Nat.shiftLeft_eq]
    ring
  rw [e4]
  simp only [rgba_channel, Nat.shiftRight_eq_div_pow,
    show (0xFF : Nat) = 2 ^ 8 - 1 by norm_num, Nat.and_pow_two_sub_one_eq_mod]
  refine ⟨?_, ?_, ?_, ?_⟩ <;> omega

/-- Any extracted channel is a byte. -/
theorem rgba_channel_lt (p k : Nat) : rgba_channel p k < 256 := by
  have : rgba_channel p k = (p >>> k) % 2 ^ 8 := by
    simp only [rgba_channel, show (0xFF : Nat) = 2 ^ 8 - 1 by norm_num,
      Nat.and_pow_two_sub_one_eq_mod]
  rw [this]
  exact Nat.mod_lt _ (by norm_num)

/-- Rounded blend of two bytes stays a byte. -/
theorem blend_div_le (s d alpha : Nat) (hs : s ≤ 255) (hd : d ≤ 255) (ha : alpha ≤ 255) :
    (s * alpha + d * (255 - alpha) + 127) / 255 ≤ 255 := by
  have h1 : s * alpha ≤ 255 * alpha := Nat.mul_le_mul_right _ hs
  have h2 : d * (255 - alpha) ≤ 255 * (255 - alpha) := Nat.mul_le_mul_right _ hd
  have h3 : s * alpha + d * (255 - alpha) + 127 ≤ 255 * 255 + 127 := by omega
  have h4 : (s * alpha + d * (255 - alpha) + 127) / 255 ≤ (255 * 255 + 127) / 255 :=
    Nat.div_le_div_right h3
  omega

/-- C9: RGBA put_pixel at in-bounds coordinates. Alpha 0 is a no-op, alpha
255 overwrites the pixel with the text color at full alpha bypassing the
blend, and for 0 < alpha < 255 every output channel equals
(channel_src * alpha + channel_dst * (255 - alpha) + 127) / 255 in exact
integer arithmetic, the source channels being 255 for alpha and the text
color for red, green and blue; all other pixels are untouched. -/
theorem rgba_put_pixel_blend (t : rgba_blend_target) (x y : Int) (alpha : Nat)
    (hx : 0 ≤ x) (hxw : x < t.m_width) (hy : 0 ≤ y) (hyh : y < t.m_height)
    (hcr : t.m_color_r < 256) (hcg : t.m_color_g < 256) (hcb : t.m_color_b < 256) :
    t.put_pixel x y 0 = t ∧
      ((t.put_pixel x y 255).m_buffer (y * t.m_width + x) =
        (255 <<< 24) ||| (t.m_color_r <<< 16) ||| (t.m_color_g <<< 8) ||| t.m_color_b) ∧
      (∀ a, a ≠ y * t.m_width + x → (t.put_pixel x y 255).m_buffer a = t.m_buffer a) ∧
      (0 < alpha → alpha < 255 →
        (rgba_channel ((t.put_pixel x y alpha).m_buffer (y * t.m_width + x)) 24 =
            (255 * alpha +
              rgba_channel (t.m_buffer (y * t.m_width + x)) 24 * (255 - alpha) + 127) / 255 ∧
          rgba_channel ((t.put_pixel x y alpha).m_buffer (y * t.m_width + x)) 16 =
            (t.m_color_r * alpha +
              rgba_channel (t.m_buffer (y * t.m_width + x)) 16 * (255 - alpha) + 127) / 255 ∧
          rgba_channel ((t.put_pixel x y alpha).m_buffer (y * t.m_width + x)) 8 =
            (t.m_color_g * alpha +
              rgba_channel (t.m_buffer (y * t.m_width + x)) 8 * (255 - alpha) + 127) / 255 ∧
          rgba_channel ((t.put_pixel x y alpha).m_buffer (y * t.m_width + x)) 0 =
            (t.m_color_b * alpha +
              rgba_channel (t.m_buffer (y * t.m_width + x)) 0 * (255 - alpha) + 127) / 255) ∧
        (∀ a, a ≠ y * t.m_width + x → (t.put_pixel x y alpha).m_buffer a = t.m_buffer a)) := by
  refine ⟨?_, ?_, ?_, ?_⟩
  · rw [rgba_blend_target.put_pixel, if_neg (by omega)]
  · rw [rgba_blend_target.put_pixel, if_pos (by omega), if_pos rfl]
    simp
  · intro a hane
    rw [rgba_blend_target.put_pixel, if_pos (by omega), if_pos rfl]
    simp [hane]
  · intro h0 h255
    constructor
    · rw [rgba_blend_target.put_pixel, if_pos (by omega), if_neg (by omega)]
      dsimp only
      rw [if_pos rfl]
      have hda := rgba_channel_lt (t.m_buffer (y * t.m_width + x)) 24
      have hdr := rgba_channel_lt (t.m_buffer (y * t.m_width + x)) 16
      have hdg := rgba_channel_lt (t.m_buffer (y * t.m_width + x)) 8
      have hdb := rgba_channel_lt (t.m_buffer (y * t.m_width + x)) 0
      have ba : alpha + (rgba_channel (t.m_buffer (y * t.m_width + x)) 24 * (255 - alpha) + 127)
          / 255 < 256 := by
        have h1 : rgba_channel (t.m_buffer (y * t.m_width + x)) 24 * (255 - alpha) ≤
            255 * (255 - alpha) := Nat.mul_le_mul_right _ (by omega)
        have h2 : (rgba_channel (t.m_buffer (y * t.m_width + x)) 24 * (255 - alpha) + 127) / 255 ≤
            (255 * (255 - alpha) + 127) / 255 :=
          Nat.div_le_div_right (by omega)
        omega
      have br := blend_div_le t.m_color_r (rgba_channel (t.m_buffer (y * t.m_width + x)) 16)
        alpha (by omega) (by omega) (by omega)
      have bg := blend_div_le t.m_color_g (rgba_channel (t.m_buffer (y * t.m_width + x)) 8)
        alpha (by omega) (by omega) (by omega)
      have bb := blend_div_le t.m_color_b (rgba_channel (t.m_buffer (y * t.m_width + x)) 0)
        alpha (by omega) (by omega) (by omega)
      have hp := rgba_pack_channels
        (alpha + (rgba_channel (t.m_buffer (y * t.m_width + x)) 24 * (255 - alpha) + 127) / 255)
        ((t.m_color_r * alpha +
          rgba_channel (t.m_buffer (y * t.m_width + x)) 16 * (255 - alpha) + 127) / 255)
        ((t.m_color_g * alpha +
          rgba_channel (t.m_buffer (y * t.m_width + x)) 8 * (255 - alpha) + 127) / 255)
        ((t.m_color_b * alpha +
          rgba_channel (t.m_buffer (y * t.m_width + x)) 0 * (255 - alpha) + 127) / 255)
        ba (by omega) (by omega) (by omega)
      refine ⟨?_, ?_, ?_, ?_⟩
      · rw [hp.1]
        have := rgba_channel_lt (t.m_buffer (y * t.m_width + x)) 24
        generalize rgba_channel (t.m_buffer (y * t.m_width + x)) 24 * (255 - alpha) = X
        omega
      · exact hp.2.1
      · exact hp.2.2.1
      · exact hp.2.2.2
    · intro a hane
      rw [rgba_blend_target.put_pixel, if_pos (by omega), if_neg (by omega)]
      simp [hane]

/-- Concrete RGBA target used by the C9 witness. -/
def rgba_example : rgba_blend_target :=
  { m_buffer := fun _ => 0x11223344, m_width := 4, m_height := 4,
    m_color_r := 0xAA, m_color_g := 0xBB, m_color_b := 0xCC }

/-- Witness for C9: blending alpha 128 over the example pixel follows the
rounded Porter-Duff formula on the red channel, and alpha 0 is a no-op. -/
theorem rgba_put_pixel_blend_witness :
    rgba_example.put_pixel 1 2 0 = rgba_example ∧
      rgba_channel ((rgba_example.put_pixel 1 2 128).m_buffer (2 * 4 + 1)) 16 =
        (0xAA * 128 + rgba_channel (rgba_example.m_buffer (2 * 4 + 1)) 16 * 127 + 127) / 255 := by
  have h := rgba_put_pixel_blend rgba_example 1 2 128 (by decide) (by decide) (by decide)
    (by decide) (by decide) (by decide) (by decide)
  exact ⟨h.1, (h.2.2.2 (by decide) (by decide)).1.2.1⟩

/-! Font sources (src/include/onyx_font/text/font_source.hh and
src/src/onyx_font/text/font_source.cc). The three font assets themselves
are out of scope per the specification (external collaborators), so each
is modelled as an abstract record of the query functions the core consumes;
font_source and everything above it is translated from the source. -/

/-- Per-glyph layout metrics (types.hh, struct glyph_metrics). -/
structure glyph_metrics where
  advance_x : ℚ
  bearing_x : ℚ
  bearing_y : ℚ
  width : ℚ
  height : ℚ
deriving DecidableEq

/-- Value of a default-initialized glyph_metrics: all fields zero. -/
def glyph_metrics.zero : glyph_metrics :=
  { advance_x := 0, bearing_x := 0, bearing_y := 0, width := 0, height := 0 }

/-- Font-wide vertical metrics at one size (types.hh, struct scaled_metrics). -/
structure scaled_metrics where
  ascent : ℚ
  descent : ℚ
  line_gap : ℚ
  line_height : ℚ
deriving DecidableEq

/-- Measured text block (types.hh, struct text_extents). -/
structure text_extents where
  width : ℚ
  height : ℚ
  ascent : ℚ
  descent : ℚ
deriving DecidableEq

def text_extents.zero : text_extents :=
  { width := 0, height := 0, ascent := 0, descent := 0 }

/-- ABC spacing record exposed by a bitmap font asset. -/
structure abc_spacing where
  a_space : Option Int
  b_space : Option Int
  c_space : Option Int

/-- Font-wide metrics exposed by a bitmap font asset. -/
structure bitmap_font_metrics where
  ascent : Int
  pixel_height : Int
  external_leading : Int

/-- Abstract bitmap font asset (out of scope): character range, default
character, metrics, per-glyph spacing and 1-bit glyph dimensions. -/
structure bitmap_font where
  first_char : Nat
  last_char : Nat
  default_char : Nat
  metrics : bitmap_font_metrics
  spacing : Nat → abc_spacing
  glyph_width : Nat → Nat
  glyph_height : Nat → Nat

/-- Stroke command kinds of a vector glyph (MOVE_TO, LINE_TO, END). -/
inductive stroke_type where
  | MOVE_TO : stroke_type
  | LINE_TO : stroke_type
  | END : stroke_type
deriving DecidableEq

/-- One stroke command: a kind plus relative coordinate deltas. -/
structure stroke_command where
  type : stroke_type
  dx : Int
  dy : Int

/-- One stroke glyph: native advance width plus its drawing program. -/
structure vector_glyph where
  width : Int
  strokes : List stroke_command

/-- Font-wide metrics exposed by a vector font asset (descent is negative). -/
structure vector_font_metrics where
  pixel_height : Int
  ascent : Int
  descent : Int

/-- Abstract vector (stroke) font asset (out of scope). -/
structure vector_font where
  metrics : vector_font_metrics
  default_char : Nat
  glyphs : Nat → Option vector_glyph
  has_glyph_fn : Nat → Bool

/-- Metrics record exposed by a ttf asset at a pixel size (descent negative). -/
structure ttf_metrics where
  ascent : ℚ
  descent : ℚ
  line_gap : ℚ

/-- Abstract outline (ttf) font asset (out of scope): native glyph lookup,
per-glyph metrics query, kerning table and scaled font metrics. -/
structure ttf_font where
  has_glyph : Nat → Bool
  glyph_metrics_fn : Nat → ℚ → Option glyph_metrics
  kerning : Nat → Nat → ℚ → ℚ
  metrics_fn : ℚ → ttf_metrics

/-- Tagged union over the three font representations (font_source.hh). -/
inductive font_source where
  | bitmap_ref : bitmap_font → font_source
  | vector_ref : vector_font → font_source
  | ttf_ref : ttf_font → font_source

/-- Font type discriminator (types.hh, enum font_source_type). -/
inductive font_source_type where
  | bitmap : font_source_type
  | vector : font_source_type
  | outline : font_source_type
deriving DecidableEq

/-- Embedding of font_source::type. -/
def font_source.type : font_source → font_source_type
  | .bitmap_ref _ => font_source_type.bitmap
  | .vector_ref _ => font_source_type.vector
  | .ttf_ref _ => font_source_type.outline

/-- Embedding of font_source::has_glyph: bitmap and vector variants reject
codepoints above 255, the outline variant delegates to the asset. -/
def font_source.has_glyph : font_source → Nat → Bool
  | .bitmap_ref font, cp =>
    if 255 < cp then false else decide (font.first_char ≤ cp ∧ cp ≤ font.last_char)
  | .vector_ref font, cp => if 255 < cp then false else font.has_glyph_fn cp
  | .ttf_ref font, cp => font.has_glyph cp

/-- Embedding of font_source::default_char ('?' for ttf). -/
def font_source.default_char : font_source → Nat
  | .bitmap_ref font => font.default_char
  | .vector_ref font => font.default_char
  | .ttf_ref _ => 63

/-- Embedding of font_source::get_scaled_metrics. -/
def font_source.get_scaled_metrics : font_source → ℚ → scaled_metrics
  | .bitmap_ref font, _ =>
    { ascent := (font.metrics.ascent : ℚ),
      descent := ((font.metrics.pixel_height - font.metrics.ascent : Int) : ℚ),
      line_gap := (font.metrics.external_leading : ℚ),
      line_height := ((font.metrics.pixel_height + font.metrics.external_leading : Int) : ℚ) }
  | .vector_ref font, size =>
    { ascent := (font.metrics.ascent : ℚ) * (size / (font.metrics.pixel_height : ℚ)),
      descent := ((-font.metrics.descent : Int) : ℚ) * (size / (font.metrics.pixel_height : ℚ)),
      line_gap := 0,
      line_height := size }
  | .ttf_ref font, size =>
    { ascent := (font.metrics_fn size).ascent,
      descent := -(font.metrics_fn size).descent,
      line_gap := (font.metrics_fn size).line_gap,
      line_height := (font.metrics_fn size).ascent + -(font.metrics_fn size).descent +
        (font.metrics_fn size).line_gap }

/-- Metrics computed for an in-range bitmap character: ABC advance with the
raw glyph width standing in for a missing B component, bearing from the A
component, bearing_y from the font ascent. -/
def bitmap_compute (font : bitmap_font) (ch : Nat) : glyph_metrics :=
  { width := (font.glyph_width ch : ℚ),
    height := (font.glyph_height ch : ℚ),
    bearing_x := match (font.spacing ch).a_space with | some a => (a : ℚ) | none => 0,
    bearing_y := (font.metrics.ascent : ℚ),
    advance_x :=
      (match (font.spacing ch).a_space with | some a => (a : ℚ) | none => 0) +
        (match (font.spacing ch).b_space with
          | some b => (b : ℚ)
          | none => (font.glyph_width ch : ℚ)) +
        (match (font.spacing ch).c_space with | some c => (c : ℚ) | none => 0) }

/-- Bitmap branch of font_source::get_glyph_metrics: codepoints above 255
return the zero record at once; an out-of-range byte falls back to the
default character, and an out-of-range default returns the zero record. -/
def bitmap_glyph_metrics (font : bitmap_font) (cp : Nat) : glyph_metrics :=
  if 255 < cp then glyph_metrics.zero
  else if font.first_char ≤ cp ∧ cp ≤ font.last_char then bitmap_compute font cp
  else if font.first_char ≤ font.default_char ∧ font.default_char ≤ font.last_char then
    bitmap_compute font font.default_char
  else glyph_metrics.zero

/-- Pen and bounding-box state of the stroke replay in the vector branch. -/
structure stroke_bounds where
  pen_x : Int
  pen_y : Int
  min_x : Int
  min_y : Int
  max_x : Int
  max_y : Int

/-- One command of the bounding-box replay: every non-END command moves the
pen and widens the box. -/
def stroke_bounds_step (s : stroke_bounds) (cmd : stroke_command) : stroke_bounds :=
  if cmd.type ≠ stroke_type.END then
    { pen_x := s.pen_x + cmd.dx, pen_y := s.pen_y + cmd.dy,
      min_x := min s.min_x (s.pen_x + cmd.dx), min_y := min s.min_y (s.pen_y + cmd.dy),
      max_x := max s.max_x (s.pen_x + cmd.dx), max_y := max s.max_y (s.pen_y + cmd.dy) }
  else s

/-- Bounding box replay over a glyph's stroke list, starting from the
origin with zero bounds. -/
def vector_glyph_bounds (glyph : vector_glyph) : stroke_bounds :=
  glyph.strokes.foldl stroke_bounds_step
    { pen_x := 0, pen_y := 0, min_x := 0, min_y := 0, max_x := 0, max_y := 0 }

/-- Metrics computed for a present vector glyph: advance from the native
width, box from the stroke replay, bearing_y the negated minimum y. -/
def vector_compute (font : vector_font) (glyph : vector_glyph) (size : ℚ) : glyph_metrics :=
  { advance_x := (glyph.width : ℚ) * (size / (font.metrics.pixel_height : ℚ)),
    bearing_x := 0,
    width :=
      (((vector_glyph_bounds glyph).max_x - (vector_glyph_bounds glyph).min_x + 1 : Int) : ℚ) *
        (size / (font.metrics.pixel_height : ℚ)),
    height :=
      (((vector_glyph_bounds glyph).max_y - (vector_glyph_bounds glyph).min_y + 1 : Int) : ℚ) *
        (size / (font.metrics.pixel_height : ℚ)),
    bearing_y :=
      ((-(vector_glyph_bounds glyph).min_y : Int) : ℚ) *
        (size / (font.metrics.pixel_height : ℚ)) }

/-- Vector branch of font_source::get_glyph_metrics: codepoints above 255
return the zero record; a missing glyph falls back to the default character
and a missing default returns the zero record. -/
def vector_glyph_metrics (font : vector_font) (cp : Nat) (size : ℚ) : glyph_metrics :=
  if 255 < cp then glyph_metrics.zero
  else
    match font.glyphs cp with
    | some glyph => vector_compute font glyph size
    | none =>
      match font.glyphs font.default_char with
      | some glyph => vector_compute font glyph size
      | none => glyph_metrics.zero

/-- Embedding of font_source::get_glyph_metrics: the ttf branch returns the
asset record or the zero record, with no default-character fallback. -/
def font_source.get_glyph_metrics : font_source → Nat → ℚ → glyph_metrics
  | .bitmap_ref font, cp, _ => bitmap_glyph_metrics font cp
  | .vector_ref font, cp, size => vector_glyph_metrics font cp size
  | .ttf_ref font, cp, size =>
    match font.glyph_metrics_fn cp size with
    | some m => m
    | none => glyph_metrics.zero

/-- Embedding of font_source::get_kerning: zero except for the ttf variant. -/
def font_source.get_kerning : font_source → Nat → Nat → ℚ → ℚ
  | .ttf_ref font, a, b, size => font.kerning a b size
  | .bitmap_ref _, _, _, _ => 0
  | .vector_ref _, _, _, _ => 0

/-- Embedding of font_source::native_size. -/
def font_source.native_size : font_source → ℚ
  | .bitmap_ref font => (font.metrics.pixel_height : ℚ)
  | .vector_ref _ => 0
  | .ttf_ref _ => 0

/-- C6 (amended): the default-character fallback of get_glyph_metrics applies
only to single-byte codepoints of the bitmap and stroke variants, where the
result equals the default character's own result (and is the zero record if
the default is itself out of range); codepoints above 255 on those variants,
and missing glyphs on the outline variant, return the all-zero record
directly; no variant ever signals an error. -/
theorem font_source_missing_glyph :
    (∀ (f : bitmap_font) (cp : Nat) (size : ℚ), 255 < cp →
      (font_source.bitmap_ref f).get_glyph_metrics cp size = glyph_metrics.zero) ∧
    (∀ (f : vector_font) (cp : Nat) (size : ℚ), 255 < cp →
      (font_source.vector_ref f).get_glyph_metrics cp size = glyph_metrics.zero) ∧
    (∀ (f : bitmap_font) (cp : Nat) (size : ℚ), cp ≤ 255 →
      ¬(f.first_char ≤ cp ∧ cp ≤ f.last_char) → f.default_char < 256 →
      (font_source.bitmap_ref f).get_glyph_metrics cp size =
        (font_source.bitmap_ref f).get_glyph_metrics f.default_char size) ∧
    (∀ (f : vector_font) (cp : Nat) (size : ℚ), cp ≤ 255 →
      f.glyphs cp = none → f.default_char < 256 →
      (font_source.vector_ref f).get_glyph_metrics cp size =
        (font_source.vector_ref f).get_glyph_metrics f.default_char size) ∧
    (∀ (f : ttf_font) (cp : Nat) (size : ℚ), f.glyph_metrics_fn cp size = none →
      (font_source.ttf_ref f).get_glyph_metrics cp size = glyph_metrics.zero) := by
  refine ⟨?_, ?_, ?_, ?_, ?_⟩
  · intro f cp size hcp
    simp only [font_source.get_glyph_metrics, bitmap_glyph_metrics]
    rw [if_pos hcp]
  · intro f cp size hcp
    simp only [font_source.get_glyph_metrics, vector_glyph_metrics]
    rw [if_pos hcp]
  · intro f cp size hcp hrange hdef
    simp only [font_source.get_glyph_metrics, bitmap_glyph_metrics]
    rw [if_neg (show ¬255 < cp by omega), if_neg hrange,
      if_neg (show ¬255 < f.default_char by omega)]
    by_cases hd : f.first_char ≤ f.default_char ∧ f.default_char ≤ f.last_char
    · rw [if_pos hd, if_pos hd]
    · rw [if_neg hd, if_neg hd]
  · intro f cp size hcp hmiss hdef
    simp only [font_source.get_glyph_metrics, vector_glyph_metrics]
    rw [if_neg (by omega), if_neg (by omega), hmiss]
    cases hg : f.glyphs f.default_char <;> simp [hg]
  · intro f cp size hmiss
    simp only [font_source.get_glyph_metrics]
    rw [hmiss]

/-- Concrete bitmap font used by the C6 counterexample and witness: range
32..126 with default character '?' = 63 and nonzero ABC spacing. -/
def example_bitmap_font : bitmap_font :=
  { first_char := 32, last_char := 126, default_char := 63,
    metrics := { ascent := 6, pixel_height := 8, external_leading := 0 },
    spacing := fun _ => { a_space := some 1, b_space := some 5, c_space := some 1 },
    glyph_width := fun _ => 5, glyph_height := fun _ => 6 }

/-- Counterexample to C6 as stated: codepoint 256 has no glyph, yet
get_glyph_metrics returns the zero record rather than the metrics of the
default character (whose metrics are nonzero). -/
theorem font_source_missing_glyph_counterexample :
    (font_source.bitmap_ref example_bitmap_font).has_glyph 256 = false ∧
      (font_source.bitmap_ref example_bitmap_font).get_glyph_metrics 256 12 =
        glyph_metrics.zero ∧
      (font_source.bitmap_ref example_bitmap_font).get_glyph_metrics 256 12 ≠
        (font_source.bitmap_ref example_bitmap_font).get_glyph_metrics
          ((font_source.bitmap_ref example_bitmap_font).default_char) 12 := by
  refine ⟨rfl, rfl, ?_⟩
  intro h
  have h2 : glyph_metrics.zero =
      (font_source.bitmap_ref example_bitmap_font).get_glyph_metrics 63 12 := h
  simp [font_source.get_glyph_metrics, bitmap_glyph_metrics, bitmap_compute,
    example_bitmap_font, glyph_metrics.zero] at h2

/-- Witness for C6 (amended): codepoint 20 is a single-byte missing glyph of
the example bitmap font and resolves to the default character's metrics. -/
theorem font_source_missing_glyph_witness :
    (font_source.bitmap_ref example_bitmap_font).get_glyph_metrics 20 12 =
      (font_source.bitmap_ref example_bitmap_font).get_glyph_metrics
        example_bitmap_font.default_char 12 :=
  font_source_missing_glyph.2.2.1 example_bitmap_font 20 12 (by decide)
    (by decide) (by decide)

/-- Codepoint sequence of a byte string, as produced by utf8_view /
utf8_iterator (utf8.cc): repeated decode_one, with the iterator's safety
stop if a decode were ever to consume zero bytes. -/
def utf8_codepoints (l : List Nat) : List Nat :=
  if h : l = [] then []
  else
    if h2 : (utf8_decode_one l).2 = 0 then [(utf8_decode_one l).1]
    else (utf8_decode_one l).1 :: utf8_codepoints (l.drop (utf8_decode_one l).2)
termination_by l.length
decreasing_by
  have := utf8_decode_pos l h
  simp only [List.length_drop]
  have hlen : l.length ≠ 0 := by
    intro hl
    exact h (List.length_eq_zero.mp hl)
  omega

/-! Text rasterizer (text_rasterizer.hh / text_rasterizer.cc): a font source
plus the current pixel size. -/

structure text_rasterizer where
  m_source : font_source
  m_size : ℚ

/-- Embedding of text_rasterizer::measure_glyph. -/
def text_rasterizer.measure_glyph (tr : text_rasterizer) (cp : Nat) : glyph_metrics :=
  tr.m_source.get_glyph_metrics cp tr.m_size

/-- Embedding of text_rasterizer::get_kerning. -/
def text_rasterizer.get_kerning (tr : text_rasterizer) (a b : Nat) : ℚ :=
  tr.m_source.get_kerning a b tr.m_size

/-- Embedding of text_rasterizer::get_metrics: bitmap sources with a positive
native size report native metrics regardless of the set size. -/
def text_rasterizer.get_metrics (tr : text_rasterizer) : scaled_metrics :=
  if tr.m_source.type = font_source_type.bitmap ∧ 0 < tr.m_source.native_size then
    tr.m_source.get_scaled_metrics tr.m_source.native_size
  else tr.m_source.get_scaled_metrics tr.m_size

/-- Embedding of text_rasterizer::line_height. -/
def text_rasterizer.line_height (tr : text_rasterizer) : ℚ :=
  tr.get_metrics.line_height

/-- Pen travel of text_rasterizer::measure_text: kerning against the
previous codepoint (skipped while prev is 0) plus the glyph advance. -/
def measure_pen (tr : text_rasterizer) : List Nat → Nat → ℚ → ℚ
  | [], _, pen => pen
  | cp :: rest, prev, pen =>
    measure_pen tr rest cp
      ((if prev ≠ 0 then pen + tr.get_kerning prev cp else pen) +
        (tr.measure_glyph cp).advance_x)

/-- Embedding of text_rasterizer::measure_text. -/
def text_rasterizer.measure_text (tr : text_rasterizer) (text : List Nat) : text_extents :=
  if text = [] then text_extents.zero
  else
    { ascent := tr.get_metrics.ascent,
      descent := tr.get_metrics.descent,
      height := tr.get_metrics.line_height,
      width := measure_pen tr (utf8_codepoints text) 0 0 }

/-! Glyph cache (glyph_cache.hh) over the memory atlas (atlas_surface.hh).
The scratch buffer a glyph is rasterized into before the atlas copy is the
output of the rasterization primitives (stroke DDA / outline scan
conversion, external); its pixels are carried as an abstract per-codepoint
function, which no cache invariant depends on. -/

/-- In-memory atlas page (atlas_surface.hh, class memory_atlas); the pixel
store is an address-indexed function. -/
structure memory_atlas where
  m_width : Int
  m_height : Int
  m_data : Int → Nat

/-- One row of memory_atlas::write_alpha: clipped to the page, copying
source bytes copy_start .. copy_end - 1 of the row at src_offset. -/
def write_alpha_row (m : memory_atlas) (x dst_y w : Int) (pixels : Int → Nat)
    (src_offset : Int) : memory_atlas :=
  if dst_y < 0 ∨ m.m_height ≤ dst_y then m
  else if max 0 (-x) < min w (m.m_width - x) then
    { m with m_data := fun a =>
        if dst_y * m.m_width + x + max 0 (-x) ≤ a ∧
            a < dst_y * m.m_width + x + min w (m.m_width - x) then
          pixels (src_offset + (a - dst_y * m.m_width - x))
        else m.m_data a }
  else m

/-- Rows 0 .. n-1 of memory_atlas::write_alpha. -/
def write_alpha_rows (m : memory_atlas) (x y w : Int) (pixels : Int → Nat) (stride : Int) :
    Nat → memory_atlas
  | 0 => m
  | r + 1 => write_alpha_row (write_alpha_rows m x y w pixels stride r) x (y + r) w pixels
      (r * stride)

/-- Embedding of memory_atlas::write_alpha. -/
def memory_atlas.write_alpha (m : memory_atlas) (x y w h : Int) (pixels : Int → Nat)
    (stride : Int) : memory_atlas :=
  if w ≤ 0 ∨ h ≤ 0 then m else write_alpha_rows m x y w pixels stride h.toNat

/-- Atlas-local glyph rectangle (types.hh, struct glyph_rect). -/
structure glyph_rect where
  x : Int
  y : Int
  w : Int
  h : Int
deriving DecidableEq

/-- Cache record of a rasterized glyph (glyph_cache.hh, struct cached_glyph). -/
structure cached_glyph where
  atlas_index : Int
  rect : glyph_rect
  bearing_x : ℚ
  bearing_y : ℚ
  advance_x : ℚ
deriving DecidableEq

/-- Cache configuration (glyph_cache.hh, struct glyph_cache_config). -/
structure glyph_cache_config where
  atlas_size : Int
  padding : Int
  pre_cache_ascii : Bool

/-- Defaults of glyph_cache_config: 512, 1, true. -/
def glyph_cache_config.default : glyph_cache_config :=
  { atlas_size := 512, padding := 1, pre_cache_ascii := true }

/-- Lookup in the codepoint map (std::unordered_map::find). -/
def cache_find : List (Nat × cached_glyph) → Nat → Option cached_glyph
  | [], _ => none
  | (k, g) :: rest, cp => if k = cp then some g else cache_find rest cp

/-- Insertion in the codepoint map (std::unordered_map::emplace): keeps the
existing entry if the key is present, and returns the stored record. -/
def cache_emplace (m : List (Nat × cached_glyph)) (cp : Nat) (g : cached_glyph) :
    cached_glyph × List (Nat × cached_glyph) :=
  match cache_find m cp with
  | some old => (old, m)
  | none => (g, (cp, g) :: m)

/-- Glyph cache state (glyph_cache.hh, class glyph_cache). -/
structure glyph_cache where
  m_rasterizer : text_rasterizer
  m_config : glyph_cache_config
  m_atlases : List memory_atlas
  m_cache : List (Nat × cached_glyph)
  m_pack_x : Int
  m_pack_y : Int
  m_row_height : Int
  scratch : Nat → Int → Nat

/-- Embedding of glyph_cache::add_atlas: append a fresh zeroed page and
reset the packing cursor. -/
def glyph_cache.add_atlas (s : glyph_cache) : glyph_cache :=
  { s with
    m_atlases := s.m_atlases ++
      [{ m_width := s.m_config.atlas_size, m_height := s.m_config.atlas_size,
         m_data := fun _ => 0 }],
    m_pack_x := s.m_config.padding,
    m_pack_y := s.m_config.padding,
    m_row_height := 0 }

/-- Replace the last page of the sequence (the write to
m_atlases[atlas_index] with atlas_index = size - 1). -/
def update_last_atlas : List memory_atlas → (memory_atlas → memory_atlas) → List memory_atlas
  | [], _ => []
  | [p], f => [f p]
  | p :: q :: rest, f => p :: update_last_atlas (q :: rest) f

/-- std::clamp of a dimension to [0, atlas_size]. -/
def clamp_dim (atlas_size v : Int) : Int :=
  if v < 0 then 0 else if atlas_size < v then atlas_size else v

/-- Embedding of glyph_cache::cache_glyph: measure, clamp, store a zero-rect
record for empty glyphs, otherwise wrap the row or open a new page when the
padded box does not fit, copy the scratch raster into the current page,
advance the cursor and record the entry. -/
def glyph_cache.cache_glyph (s : glyph_cache) (cp : Nat) : cached_glyph × glyph_cache :=
  let metrics := s.m_rasterizer.measure_glyph cp
  let glyph_w : Int := clamp_dim s.m_config.atlas_size ⌈metrics.width⌉
  let glyph_h : Int := clamp_dim s.m_config.atlas_size ⌈metrics.height⌉
  if glyph_w ≤ 0 ∨ glyph_h ≤ 0 then
    let r := cache_emplace s.m_cache cp
      { atlas_index := 0, rect := { x := 0, y := 0, w := 0, h := 0 },
        bearing_x := metrics.bearing_x, bearing_y := metrics.bearing_y,
        advance_x := metrics.advance_x }
    (r.1, { s with m_cache := r.2 })
  else
    let padded_w := glyph_w + s.m_config.padding
    let padded_h := glyph_h + s.m_config.padding
    let s1 :=
      if s.m_config.atlas_size < s.m_pack_x + padded_w then
        { s with m_pack_x := s.m_config.padding,
                 m_pack_y := s.m_pack_y + s.m_row_height + s.m_config.padding,
                 m_row_height := 0 }
      else s
    let s2 := if s1.m_config.atlas_size < s1.m_pack_y + padded_h then s1.add_atlas else s1
    let r := cache_emplace s2.m_cache cp
      { atlas_index := (s2.m_atlases.length : Int) - 1,
        rect := { x := s2.m_pack_x, y := s2.m_pack_y, w := glyph_w, h := glyph_h },
        bearing_x := metrics.bearing_x, bearing_y := metrics.bearing_y,
        advance_x := metrics.advance_x }
    (r.1,
      { s2 with
        m_atlases := update_last_atlas s2.m_atlases
          (fun p => p.write_alpha s2.m_pack_x s2.m_pack_y glyph_w glyph_h (s.scratch cp)
            glyph_w),
        m_pack_x := s2.m_pack_x + padded_w,
        m_row_height := max s2.m_row_height padded_h,
        m_cache := r.2 })

/-- Embedding of glyph_cache::get: return the cached record or rasterize. -/
def glyph_cache.get (s : glyph_cache) (cp : Nat) : cached_glyph × glyph_cache :=
  match cache_find s.m_cache cp with
  | some g => (g, s)
  | none => s.cache_glyph cp

/-- Embedding of glyph_cache::is_cached. -/
def glyph_cache.is_cached (s : glyph_cache) (cp : Nat) : Bool :=
  (cache_find s.m_cache cp).isSome

/-- Loop of glyph_cache::cache_range. -/
def cache_range_go (s : glyph_cache) (cp last : Nat) : glyph_cache :=
  if cp ≤ last then
    cache_range_go (if s.is_cached cp then s else (s.cache_glyph cp).2) (cp + 1) last
  else s
termination_by last + 1 - cp

/-- Embedding of glyph_cache::cache_range. -/
def glyph_cache.cache_range (s : glyph_cache) (first last : Nat) : glyph_cache :=
  cache_range_go s first last

/-- Embedding of glyph_cache::cache_string. -/
def glyph_cache.cache_string (s : glyph_cache) (text : List Nat) : glyph_cache :=
  (utf8_codepoints text).foldl
    (fun s cp => if s.is_cached cp then s else (s.cache_glyph cp).2) s

/-- Embedding of the glyph_cache constructor: build the rasterizer, create
the first page, then eagerly cache printable ASCII when configured. -/
def glyph_cache.init (source : font_source) (size : ℚ) (config : glyph_cache_config)
    (scratch : Nat → Int → Nat) : glyph_cache :=
  let s1 := glyph_cache.add_atlas
    { m_rasterizer := { m_source := source, m_size := size }, m_config := config,
      m_atlases := [], m_cache := [], m_pack_x := 0, m_pack_y := 0, m_row_height := 0,
      scratch := scratch }
  if config.pre_cache_ascii then s1.cache_range 32 126 else s1

/-- Embedding of glyph_cache::atlas_count. -/
def glyph_cache.atlas_count (s : glyph_cache) : Int := (s.m_atlases.length : Int)

/-- Embedding of glyph_cache::atlas: the only failing operation of the core,
an out-of-range condition on an invalid index; the receiver is const. -/
def glyph_cache.atlas (s : glyph_cache) (index : Int) : Except String memory_atlas :=
  if index < 0 ∨ (s.m_atlases.length : Int) ≤ index then
    Except.error "atlas index out of range"
  else Except.ok (s.m_atlases.getD index.toNat
    { m_width := 0, m_height := 0, m_data := fun _ => 0 })

/-- cache_glyph stores the record it returns under the requested codepoint. -/
theorem glyph_cache.cache_glyph_find (s : glyph_cache) (cp : Nat)
    (h : cache_find s.m_cache cp = none) :
    cache_find (s.cache_glyph cp).2.m_cache cp = some (s.cache_glyph cp).1 := by
  rw [glyph_cache.cache_glyph]
  dsimp only
  split
  · simp [cache_emplace, h, cache_find]
  · split <;> split <;> simp [glyph_cache.add_atlas, cache_emplace, h, cache_find]

/-- C1: a second get of the same codepoint returns the identical stored
record and leaves the whole cache state - codepoint map, atlas pages and
packing cursor - unchanged: no re-rasterization happens on a hit. -/
theorem glyph_cache_get_idempotent (s : glyph_cache) (cp : Nat) :
    ((s.get cp).2.get cp).1 = (s.get cp).1 ∧
      ((s.get cp).2.get cp).2 = (s.get cp).2 ∧
      cache_find (s.get cp).2.m_cache cp = some (s.get cp).1 := by
  rcases hf : cache_find s.m_cache cp with _ | g
  · have h1 : cache_find (s.cache_glyph cp).2.m_cache cp = some (s.cache_glyph cp).1 :=
      glyph_cache.cache_glyph_find s cp hf
    have h2 : s.get cp = s.cache_glyph cp := by
      rw [glyph_cache.get, hf]
    rw [h2, glyph_cache.get, h1]
    exact ⟨rfl, rfl, rfl⟩
  · have h2 : s.get cp = (g, s) := by
      rw [glyph_cache.get, hf]
    rw [h2, glyph_cache.get, hf]
    exact ⟨rfl, rfl, rfl⟩

/-- C8: atlas(index) fails exactly when the index is negative or at least
atlas_count, and returns the requested page otherwise; the accessor is
const, so the cache state is untouched either way. -/
theorem glyph_cache_atlas_range (s : glyph_cache) (index : Int) :
    ((∃ e, s.atlas index = Except.error e) ↔ index < 0 ∨ s.atlas_count ≤ index) ∧
      (0 ≤ index → index < s.atlas_count →
        s.atlas index = Except.ok (s.m_atlases.getD index.toNat
          { m_width := 0, m_height := 0, m_data := fun _ => 0 })) := by
  simp only [glyph_cache.atlas_count, glyph_cache.atlas]
  constructor
  · constructor
    · intro he
      by_contra hc
      rw [if_neg hc] at he
      obtain ⟨e, he⟩ := he
      exact absurd he (by simp)
    · intro hcond
      exact ⟨"atlas index out of range", by rw [if_pos hcond]⟩
  · intro h0 hlt
    rw [if_neg (by omega)]

/-- Concrete one-page cache used by the C8 witness. -/
def example_cache : glyph_cache :=
  { m_rasterizer := { m_source := font_source.bitmap_ref example_bitmap_font, m_size := 12 },
    m_config := { atlas_size := 512, padding := 1, pre_cache_ascii := false },
    m_atlases := [{ m_width := 512, m_height := 512, m_data := fun _ => 0 }],
    m_cache := [], m_pack_x := 1, m_pack_y := 1, m_row_height := 0,
    scratch := fun _ _ => 0 }

/-- Witness for C8: index 0 of a one-page cache is in range and returns the
page. -/
theorem glyph_cache_atlas_range_witness :
    example_cache.atlas 0 = Except.ok (example_cache.m_atlases.getD 0
      { m_width := 0, m_height := 0, m_data := fun _ => 0 }) :=
  (glyph_cache_atlas_range example_cache 0).2 (by decide) (by decide)

/-- Bitmap font whose every glyph measures as wide as the whole example
atlas page: used to exhibit the packing overflow of C2. -/
def example_wide_font : bitmap_font :=
  { first_char := 0, last_char := 255, default_char := 0,
    metrics := { ascent := 1, pixel_height := 1, external_leading := 0 },
    spacing := fun _ => { a_space := none, b_space := some 4, c_space := none },
    glyph_width := fun _ => 4, glyph_height := fun _ => 1 }

/-- Cache over a 4-pixel page with padding 1 and no eager ASCII caching. -/
def c2_cache : glyph_cache :=
  glyph_cache.init (font_source.bitmap_ref example_wide_font) 12
    { atlas_size := 4, padding := 1, pre_cache_ascii := false } (fun _ _ => 0)

/-- C2 fails on the code: caching a glyph whose clamped width equals the
page size places it at x = padding after a row wrap with no re-check, so
the recorded rect ends at x + w = 5 on a 4-pixel-wide page. -/
theorem glyph_cache_rect_overflow :
    (c2_cache.get 200).1.rect = { x := 1, y := 2, w := 4, h := 1 } ∧
      (c2_cache.get 200).1.atlas_index = 0 ∧
      (c2_cache.get 200).2.atlas_count = 1 ∧
      ((c2_cache.get 200).2.m_atlases.getD 0
        { m_width := 0, m_height := 0, m_data := fun _ => 0 }).m_width = 4 ∧
      ¬((c2_cache.get 200).1.rect.x + (c2_cache.get 200).1.rect.w ≤
        ((c2_cache.get 200).2.m_atlases.getD 0
          { m_width := 0, m_height := 0, m_data := fun _ => 0 }).m_width) := by
  refine ⟨?_, ?_, ?_, ?_, ?_⟩ <;> decide

/-! Text renderer (text_renderer.hh): draw_baseline walks the codepoints,
applies kerning, looks the glyph up in the cache (mutating it on a miss)
and invokes the blit callback only for glyphs with a positive rect. A blit
invocation is recorded as an event carrying the atlas index of the page
handed to the callback. -/

/-- One blit callback invocation of draw_baseline. -/
structure blit_event where
  atlas_index : Int
  rect : glyph_rect
  dst_x : ℚ
  dst_y : ℚ

/-- Loop of text_renderer::draw_baseline over decoded codepoints: kerning
against the previous codepoint, cache lookup, conditional blit, advance. -/
def draw_loop (y : ℚ) : glyph_cache → List Nat → ℚ → Nat → List blit_event × ℚ × glyph_cache
  | s, [], pen_x, _ => ([], pen_x, s)
  | s, cp :: rest, pen_x, prev =>
    let pen1 := if prev ≠ 0 then pen_x + s.m_rasterizer.get_kerning prev cp else pen_x
    let r := s.get cp
    let evs :=
      if 0 < r.1.rect.w ∧ 0 < r.1.rect.h then
        [{ atlas_index := r.1.atlas_index, rect := r.1.rect,
           dst_x := pen1 + r.1.bearing_x, dst_y := y - r.1.bearing_y }]
      else []
    let rest_r := draw_loop y r.2 rest (pen1 + r.1.advance_x) cp
    (evs ++ rest_r.1, rest_r.2.1, rest_r.2.2)

/-- Embedding of text_renderer::draw_baseline: returns the blit events, the
advanced width pen_x - x, and the cache state after the walk. -/
def text_renderer.draw_baseline (s : glyph_cache) (text : List Nat) (x y : ℚ) :
    List blit_event × ℚ × glyph_cache :=
  if text = [] then ([], 0, s)
  else
    let r := draw_loop y s (utf8_codepoints text) x 0
    (r.1, r.2.1 - x, r.2.2)

/-- Embedding of text_renderer::draw: baseline at y + ascent. -/
def text_renderer.draw (s : glyph_cache) (text : List Nat) (x y : ℚ) :
    List blit_event × ℚ × glyph_cache :=
  if text = [] then ([], 0, s)
  else text_renderer.draw_baseline s text x (y + s.m_rasterizer.get_metrics.ascent)

/-- Pen travel the claim describes: for every codepoint, kerning against the
previous codepoint plus the advance of the glyph record the cache holds
(zero-size glyphs included), read against one fixed cache state. -/
def pen_travel (s : glyph_cache) : List Nat → Nat → ℚ
  | [], _ => 0
  | cp :: rest, prev =>
    (if prev ≠ 0 then s.m_rasterizer.get_kerning prev cp else 0) +
      (s.get cp).1.advance_x + pen_travel s rest cp

/-- cache_glyph never overwrites an existing entry of the codepoint map. -/
theorem glyph_cache.cache_glyph_preserves (s : glyph_cache) (cp c : Nat) (g : cached_glyph)
    (hmiss : cache_find s.m_cache cp = none) (h : cache_find s.m_cache c = some g) :
    cache_find (s.cache_glyph cp).2.m_cache c = some g := by
  have hne : cp ≠ c := by
    intro he
    rw [he, h] at hmiss
    exact absurd hmiss (by simp)
  rw [glyph_cache.cache_glyph]
  dsimp only
  split
  · simp [cache_emplace, hmiss, cache_find, hne, h]
  · split <;> split <;> simp [glyph_cache.add_atlas, cache_emplace, hmiss, cache_find, hne, h]

/-- cache_glyph leaves the rasterizer untouched. -/
theorem glyph_cache.cache_glyph_rasterizer (s : glyph_cache) (cp : Nat) :
    (s.cache_glyph cp).2.m_rasterizer = s.m_rasterizer := by
  rw [glyph_cache.cache_glyph]
  dsimp only
  split
  · rfl
  · split <;> split <;> simp [glyph_cache.add_atlas]

/-- get stores the record it returns under the requested codepoint. -/
theorem glyph_cache.get_find (s : glyph_cache) (cp : Nat) :
    cache_find (s.get cp).2.m_cache cp = some (s.get cp).1 := by
  rcases hf : cache_find s.m_cache cp with _ | g
  · have h2 : s.get cp = s.cache_glyph cp := by rw [glyph_cache.get, hf]
    rw [h2]
    exact glyph_cache.cache_glyph_find s cp hf
  · have h2 : s.get cp = (g, s) := by rw [glyph_cache.get, hf]
    rw [h2]
    exact hf

/-- get never drops an existing entry of the codepoint map. -/
theorem glyph_cache.get_preserves (s : glyph_cache) (cp c : Nat) (g : cached_glyph)
    (h : cache_find s.m_cache c = some g) :
    cache_find (s.get cp).2.m_cache c = some g := by
  rcases hf : cache_find s.m_cache cp with _ | g2
  · have h2 : s.get cp = s.cache_glyph cp := by rw [glyph_cache.get, hf]
    rw [h2]
    exact glyph_cache.cache_glyph_preserves s cp c g hf h
  · have h2 : s.get cp = (g2, s) := by rw [glyph_cache.get, hf]
    rw [h2]
    exact h

/-- get leaves the rasterizer untouched. -/
theorem glyph_cache.get_rasterizer (s : glyph_cache) (cp : Nat) :
    (s.get cp).2.m_rasterizer = s.m_rasterizer := by
  rcases hf : cache_find s.m_cache cp with _ | g
  · have h2 : s.get cp = s.cache_glyph cp := by rw [glyph_cache.get, hf]
    rw [h2]
    exact glyph_cache.cache_glyph_rasterizer s cp
  · rw [glyph_cache.get, hf]

/-- Invariant of the draw loop: blits only fire for glyphs with positive
rect dimensions, the pen arrives at the start plus the per-codepoint travel
read against the final state, entries are never dropped, and the rasterizer
is unchanged. -/
theorem draw_loop_spec (y : ℚ) (cps : List Nat) : ∀ (s : glyph_cache) (pen : ℚ) (prev : Nat),
    (∀ e ∈ (draw_loop y s cps pen prev).1, 0 < e.rect.w ∧ 0 < e.rect.h) ∧
      (draw_loop y s cps pen prev).2.1 =
        pen + pen_travel (draw_loop y s cps pen prev).2.2 cps prev ∧
      (∀ c g, cache_find s.m_cache c = some g →
        cache_find (draw_loop y s cps pen prev).2.2.m_cache c = some g) ∧
      (draw_loop y s cps pen prev).2.2.m_rasterizer = s.m_rasterizer := by
  induction cps with
  | nil =>
    intro s pen prev
    refine ⟨by simp [draw_loop], by simp [draw_loop, pen_travel], fun c g h => h, rfl⟩
  | cons cp rest ih =>
    intro s pen prev
    obtain ⟨ih1, ih2, ih3, ih4⟩ := ih (s.get cp).2
      ((if prev ≠ 0 then pen + s.m_rasterizer.get_kerning prev cp else pen) +
        (s.get cp).1.advance_x) cp
    have hfind : cache_find (draw_loop y (s.get cp).2 rest
        ((if prev ≠ 0 then pen + s.m_rasterizer.get_kerning prev cp else pen) +
          (s.get cp).1.advance_x) cp).2.2.m_cache cp = some (s.get cp).1 :=
      ih3 cp (s.get cp).1 (glyph_cache.get_find s cp)
    have hras : (draw_loop y (s.get cp).2 rest
        ((if prev ≠ 0 then pen + s.m_rasterizer.get_kerning prev cp else pen) +
          (s.get cp).1.advance_x) cp).2.2.m_rasterizer = s.m_rasterizer :=
      ih4.trans (glyph_cache.get_rasterizer s cp)
    refine ⟨?_, ?_, ?_, hras⟩
    · intro e he
      rw [draw_loop] at he
      dsimp only at he
      rw [List.mem_append] at he
      rcases he with he | he
      · split at he
        case isTrue hpos => simp at he; rw [he]; exact hpos
        case isFalse => simp at he
      · exact ih1 e he
    · show (draw_loop y s (cp :: rest) pen prev).2.1 = _
      rw [draw_loop]
      dsimp only
      rw [ih2, pen_travel]
      have hget : (draw_loop y (s.get cp).2 rest
          ((if prev ≠ 0 then pen + s.m_rasterizer.get_kerning prev cp else pen) +
            (s.get cp).1.advance_x) cp).2.2.get cp =
          ((s.get cp).1, (draw_loop y (s.get cp).2 rest
            ((if prev ≠ 0 then pen + s.m_rasterizer.get_kerning prev cp else pen) +
              (s.get cp).1.advance_x) cp).2.2) := by
        rw [glyph_cache.get, hfind]
      rw [hget, hras]
      split <;> ring
    · intro c g h
      rw [draw_loop]
      dsimp only
      exact ih3 c g (glyph_cache.get_preserves s cp c g h)

/-- C7: during draw and draw_baseline the blit callback only ever receives
glyphs with rect.w > 0 and rect.h > 0, and the returned width is the sum,
over every decoded codepoint, of the kerning against the previous codepoint
plus that codepoint's cached advance_x - zero-size glyphs advance the pen
like any other glyph. -/
theorem text_renderer_draw_blits (s : glyph_cache) (text : List Nat) (x y : ℚ) :
    (∀ e ∈ (text_renderer.draw_baseline s text x y).1, 0 < e.rect.w ∧ 0 < e.rect.h) ∧
      (text_renderer.draw_baseline s text x y).2.1 =
        pen_travel (text_renderer.draw_baseline s text x y).2.2 (utf8_codepoints text) 0 ∧
      (∀ e ∈ (text_renderer.draw s text x y).1, 0 < e.rect.w ∧ 0 < e.rect.h) ∧
      (text_renderer.draw s text x y).2.1 =
        pen_travel (text_renderer.draw s text x y).2.2 (utf8_codepoints text) 0 := by
  have hbase : ∀ y2 : ℚ,
      (∀ e ∈ (text_renderer.draw_baseline s text x y2).1, 0 < e.rect.w ∧ 0 < e.rect.h) ∧
        (text_renderer.draw_baseline s text x y2).2.1 =
          pen_travel (text_renderer.draw_baseline s text x y2).2.2 (utf8_codepoints text) 0 := by
    intro y2
    rw [text_renderer.draw_baseline]
    split
    case isTrue he =>
      subst he
      exact ⟨by simp, by simp [utf8_codepoints, pen_travel]⟩
    case isFalse he =>
      obtain ⟨h1, h2, h3, h4⟩ := draw_loop_spec y2 (utf8_codepoints text) s x 0
      exact ⟨h1, by dsimp only; rw [h2]; ring⟩
  refine ⟨(hbase y).1, (hbase y).2, ?_, ?_⟩
  · rw [text_renderer.draw]
    split
    case isTrue => simp
    case isFalse => exact (hbase (y + s.m_rasterizer.get_metrics.ascent)).1
  · rw [text_renderer.draw]
    split
    case isTrue he =>
      subst he
      simp [utf8_codepoints, pen_travel]
    case isFalse => exact (hbase (y + s.m_rasterizer.get_metrics.ascent)).2

/-! Greedy word wrap (text_renderer.hh, wrap_lines). The C++ walks raw
byte pointers; positions are byte offsets here, and a produced line is the
byte slice between two offsets. -/

/-- Codepoint decoded at a byte offset. -/
def dec_cp (text : List Nat) (pos : Nat) : Nat := (utf8_decode_one (text.drop pos)).1

/-- Bytes consumed by the decode at a byte offset. -/
def dec_len (text : List Nat) (pos : Nat) : Nat := (utf8_decode_one (text.drop pos)).2

/-- Advance of the glyph decoded at a byte offset
(m_cache->rasterizer().measure_glyph(cp).advance_x). -/
def dec_adv (tr : text_rasterizer) (text : List Nat) (pos : Nat) : ℚ :=
  (tr.measure_glyph (dec_cp text pos)).advance_x

/-- Byte slice [s, e) of the text, the contents of one produced line. -/
def byte_slice (text : List Nat) (s e : Nat) : List Nat := (text.drop s).take (e - s)

/-- Offsets reachable from s by whole decode steps: every line boundary the
wrap loop produces is such an offset. -/
inductive chain (text : List Nat) : Nat → Nat → Prop where
  | refl (s : Nat) : chain text s s
  | snoc {s m : Nat} : chain text s m → m < text.length → chain text s (m + dec_len text m)

theorem chain_le {text : List Nat} {s e : Nat} (h : chain text s e) : s ≤ e := by
  induction h with
  | refl => exact Nat.le_refl s
  | snoc _ _ ih => omega

theorem chain_le_len {text : List Nat} {s e : Nat} (h : chain text s e)
    (hs : s ≤ text.length) : e ≤ text.length := by
  induction h with
  | refl => exact hs
  | snoc c hm ih =>
    rename_i m
    have h2 : dec_len text m ≤ text.length - m := by
      have h3 := utf8_decode_consumed_le (text.drop m)
      simpa [dec_len] using h3
    omega

theorem chain_trans {text : List Nat} {s m e : Nat} (h1 : chain text s m)
    (h2 : chain text m e) : chain text s e := by
  induction h2 with
  | refl => exact h1
  | snoc c hm ih => exact chain.snoc ih hm

theorem dec_len_pos {text : List Nat} {m : Nat} (hm : m < text.length) :
    1 ≤ dec_len text m := by
  apply utf8_decode_pos
  intro hd
  have := congrArg List.length hd
  simp at this
  omega

theorem chain_head {text : List Nat} {s e : Nat} (h : chain text s e) :
    s = e ∨ (s < text.length ∧ chain text (s + dec_len text s) e) := by
  induction h with
  | refl => exact Or.inl rfl
  | snoc c hm ih =>
    rcases ih with he | ⟨hs, hc⟩
    · subst he
      exact Or.inr ⟨hm, chain.refl _⟩
    · exact Or.inr ⟨hs, chain.snoc hc hm⟩

theorem chain_total {text : List Nat} {a b : Nat} (ha : chain text 0 a)
    (hb : chain text 0 b) : chain text a b ∨ chain text b a := by
  induction hb with
  | refl =>
    right
    exact ha
  | snoc c hm ih =>
    rcases ih with hc | hc
    · exact Or.inl (chain.snoc hc hm)
    · rcases chain_head hc with he | ⟨hs, hc2⟩
      · subst he
        exact Or.inl (chain.snoc (chain.refl _) hm)
      · exact Or.inr hc2

theorem chain_connect {text : List Nat} {a b : Nat} (ha : chain text 0 a)
    (hb : chain text 0 b) (hab : a ≤ b) : chain text a b := by
  rcases chain_total ha hb with hc | hc
  · exact hc
  · have := chain_le hc
    have he : a = b := by omega
    subst he
    exact chain.refl a

/-- Codepoints decoded between two reachable offsets. -/
def cps_between (text : List Nat) (s e : Nat) : List Nat :=
  if h : s < e then
    if h2 : dec_len text s = 0 then []
    else dec_cp text s :: cps_between text (s + dec_len text s) e
  else []
termination_by e - s
decreasing_by omega

/-- Sum of the advances of a codepoint list. -/
def advance_sum (tr : text_rasterizer) (cps : List Nat) : ℚ :=
  (cps.map (fun cp => (tr.measure_glyph cp).advance_x)).sum

theorem advance_sum_append (tr : text_rasterizer) (a b : List Nat) :
    advance_sum tr (a ++ b) = advance_sum tr a + advance_sum tr b := by
  simp [advance_sum]

theorem advance_sum_nonneg (tr : text_rasterizer)
    (hadv : ∀ cp, 0 < (tr.measure_glyph cp).advance_x) (cps : List Nat) :
    0 ≤ advance_sum tr cps := by
  apply List.sum_nonneg
  intro q hq
  simp only [List.mem_map] at hq
  obtain ⟨cp, _, hcp⟩ := hq
  rw [← hcp]
  exact le_of_lt (hadv cp)

theorem cps_between_append (text : List Nat) (m e : Nat) (hme : m ≤ e) :
    ∀ s, chain text s m →
      cps_between text s e = cps_between text s m ++ cps_between text m e := by
  suffices hall : ∀ k s, m - s ≤ k → chain text s m →
      cps_between text s e = cps_between text s m ++ cps_between text m e by
    intro s hc
    exact hall (m - s) s (Nat.le_refl _) hc
  intro k
  induction k with
  | zero =>
    intro s hk hc
    have hsm := chain_le hc
    have he : s = m := by omega
    subst he
    rw [show cps_between text s s = ([] : List Nat) from by
      rw [cps_between, dif_neg (by omega)]]
    simp
  | succ n ih =>
    intro s hk hc
    rcases chain_head hc with he | ⟨hs, hc2⟩
    · subst he
      rw [show cps_between text s s = ([] : List Nat) from by
        rw [cps_between, dif_neg (by omega)]]
      simp
    · have hlen := dec_len_pos hs
      have hnext := chain_le hc2
      have hsm : s < m := by omega
      rw [cps_between, dif_pos (by omega : s < e), dif_neg (by omega)]
      rw [show cps_between text s m =
        dec_cp text s :: cps_between text (s + dec_len text s) m from by
          rw [cps_between, dif_pos hsm, dif_neg (by omega)]]
      rw [List.cons_append]
      congr 1
      exact ih (s + dec_len text s) (by omega) hc2

theorem cps_between_one (text : List Nat) (m : Nat) (hm : m < text.length) :
    cps_between text m (m + dec_len text m) = [dec_cp text m] := by
  have hlen := dec_len_pos hm
  rw [cps_between, dif_pos (by omega), dif_neg (by omega), cps_between, dif_neg (by omega)]

/-- Appending one decode unit to a codepoint range. -/
theorem cps_between_snoc (text : List Nat) (a cur : Nat) (ha : chain text 0 a)
    (hcur : chain text 0 cur) (hac : a ≤ cur) (hcn : cur < text.length) :
    cps_between text a (cur + dec_len text cur) =
      cps_between text a cur ++ [dec_cp text cur] := by
  rw [cps_between_append text cur (cur + dec_len text cur) (by omega) a
    (chain_connect ha hcur hac), cps_between_one text cur hcn]

theorem byte_slice_append (text : List Nat) (s m e : Nat) (hsm : s ≤ m) (hme : m ≤ e) :
    byte_slice text s e = byte_slice text s m ++ byte_slice text m e := by
  simp only [byte_slice]
  rw [show e - s = (m - s) + (e - m) from by omega, List.take_add]
  congr 1
  rw [List.drop_drop, show s + (m - s) = m from by omega]

theorem byte_slice_length (text : List Nat) (s e : Nat) :
    (byte_slice text s e).length = min (e - s) (text.length - s) := by
  simp [byte_slice]

theorem byte_slice_getD (text : List Nat) (s e i : Nat) (h : i < e - s)
    (h2 : s + i < text.length) : (byte_slice text s e).getD i 0 = text.getD (s + i) 0 := by
  simp only [byte_slice]
  rw [List.getD_eq_getElem?_getD, List.getElem?_take, if_pos h, List.getElem?_drop,
    ← List.getD_eq_getElem?_getD]

theorem getD_mem_of_lt {l : List Nat} {i : Nat} (h : i < l.length) : l.getD i 0 ∈ l := by
  rw [List.getD_eq_getElem?_getD, List.getElem?_eq_getElem h]
  exact List.getElem_mem h

theorem drop_getD (text : List Nat) (m i : Nat) :
    (text.drop m).getD i 0 = text.getD (m + i) 0 := by
  rw [List.getD_eq_getElem?_getD, List.getElem?_drop, ← List.getD_eq_getElem?_getD]

/-- Decoding at a position whose byte is ASCII gives that byte, length 1. -/
theorem dec_ascii_byte (text : List Nat) (m : Nat) (hm : m < text.length)
    (hb : text.getD m 0 < 0x80) :
    dec_cp text m = text.getD m 0 ∧ dec_len text m = 1 := by
  have hne : text.drop m ≠ [] := by
    intro h0
    have := congrArg List.length h0
    simp at this
    omega
  obtain ⟨a, t, hat⟩ := List.exists_cons_of_ne_nil hne
  have ha : a = text.getD m 0 := by
    have h0 := drop_getD text m 0
    rw [hat] at h0
    simpa using h0
  have hlt : a < 0x80 := by rw [ha]; exact hb
  have hdec : utf8_decode_one (a :: t) = (a, 1) := by
    simp only [utf8_decode_one]
    rw [if_pos hlt]
  constructor
  · rw [dec_cp, hat, hdec, ha]
  · rw [dec_len, hat, hdec]

/-- Decoding that yields an ASCII codepoint consumed one byte, that byte. -/
theorem dec_ascii_cp (text : List Nat) (m : Nat) (hm : m < text.length)
    (hcp : dec_cp text m < 0x80) :
    dec_len text m = 1 ∧ text.getD m 0 = dec_cp text m := by
  have hne : text.drop m ≠ [] := by
    intro h0
    have := congrArg List.length h0
    simp at this
    omega
  have h := utf8_decode_ascii (text.drop m) hcp hne
  refine ⟨h.1, ?_⟩
  have h0 := drop_getD text m 0
  rw [show m + 0 = m from rfl] at h0
  rw [← h0]
  exact h.2

theorem mem_take_getD (l : List Nat) (n : Nat) (x : Nat) (h : x ∈ l.take n) :
    ∃ i, i < n ∧ i < l.length ∧ l.getD i 0 = x := by
  induction l generalizing n with
  | nil => simp at h
  | cons a t ih =>
    rcases n with _ | n
    · simp at h
    · rw [List.take_succ_cons] at h
      rcases List.mem_cons.mp h with he | ht
      · exact ⟨0, by omega, by simp, by simp [he.symm]⟩
      · obtain ⟨i, hi1, hi2, hi3⟩ := ih n ht
        refine ⟨i + 1, by omega, by simp; omega, by simpa using hi3⟩

/-- A decode unit contains an ASCII byte b only when it decodes to b itself:
multi-byte units consist of bytes at or above 0x80. -/
theorem unit_no_byte (text : List Nat) (m b : Nat) (hm : m < text.length)
    (hb : b < 0x80) (hcp : dec_cp text m ≠ b) :
    b ∉ byte_slice text m (m + dec_len text m) := by
  intro hmem
  rw [byte_slice, show m + dec_len text m - m = dec_len text m from by omega] at hmem
  obtain ⟨i, hi1, hi2, hi3⟩ := mem_take_getD _ _ _ hmem
  rcases utf8_decode_byte_mem (text.drop m) i hi1 with ⟨hl1, hcpeq, hlt⟩ | hge
  · have hi0 : i = 0 := by
      have : dec_len text m = 1 := hl1
      omega
    subst hi0
    exact hcp (by rw [dec_cp, hcpeq, hi3])
  · rw [hi3] at hge
    omega

theorem dec_space (text : List Nat) (m : Nat) (hm : m < text.length)
    (hb : text.getD m 0 = 32) : dec_cp text m = 32 ∧ dec_len text m = 1 := by
  have h := dec_ascii_byte text m hm (by omega)
  exact ⟨by rw [h.1, hb], h.2⟩

/-- In-range positions of [a, e) contribute their byte to the slice. -/
theorem byte_mem_slice (text : List Nat) (a e i : Nat) (hai : a ≤ i) (hie : i < e)
    (hiN : i < text.length) : text.getD i 0 ∈ byte_slice text a e := by
  have hlen : i - a < (byte_slice text a e).length := by
    rw [byte_slice_length]
    omega
  have hget := byte_slice_getD text a e (i - a) (by omega) (by omega)
  rw [show a + (i - a) = i from by omega] at hget
  rw [← hget]
  exact getD_mem_of_lt hlen

/-- The C++ trim of trailing spaces from a pending line: the end offset
walks back while the previous byte is a blank. -/
def trim_end (text : List Nat) (s : Nat) (e : Nat) : Nat :=
  if h : s < e ∧ text.getD (e - 1) 0 = 32 then trim_end text s (e - 1) else e
termination_by e
decreasing_by omega

theorem trim_end_le (text : List Nat) (s : Nat) : ∀ e, trim_end text s e ≤ e := by
  intro e
  induction e using Nat.strong_induction_on with
  | _ e ih =>
    rw [trim_end]
    split
    next h =>
      have h2 := ih (e - 1) (by omega)
      omega
    next h => exact Nat.le_refl e

theorem trim_end_ge (text : List Nat) (s : Nat) : ∀ e, s ≤ e → s ≤ trim_end text s e := by
  intro e
  induction e using Nat.strong_induction_on with
  | _ e ih =>
    intro hse
    rw [trim_end]
    split
    next h => exact ih (e - 1) (by omega) (by omega)
    next h => exact hse

/-- Trimming trailing spaces stays on the decode orbit: a trailing 0x20
byte is always a whole one-byte unit. -/
theorem trim_end_chain (text : List Nat) (s : Nat) :
    ∀ e, chain text s e → e ≤ text.length → chain text s (trim_end text s e) := by
  intro e
  induction e using Nat.strong_induction_on with
  | _ e ih =>
    intro hc he
    rw [trim_end]
    split
    next h =>
      cases hc with
      | refl => omega
      | snoc c hm =>
        rename_i m
        have hlen := dec_len_pos hm
        by_cases h1 : dec_len text m = 1
        · have hme : m + dec_len text m - 1 = m := by omega
          rw [hme]
          exact ih m (by omega) c (by omega)
        · exfalso
          have hi : dec_len text m - 1 < (utf8_decode_one (text.drop m)).2 := by
            have : 1 ≤ dec_len text m := hlen
            simp only [dec_len] at *
            omega
          rcases utf8_decode_byte_mem (text.drop m) (dec_len text m - 1) hi with
            ⟨hl1, _, _⟩ | hge
          · exact h1 hl1
          · have hd := drop_getD text m (dec_len text m - 1)
            rw [hd, show m + (dec_len text m - 1) = m + dec_len text m - 1 from by omega]
              at hge
            rw [h.2] at hge
            omega
    next h => exact hc

/-- The codepoints of a byte slice between reachable offsets are the
per-position decodes: each unit of the slice decodes exactly as in the
full text (truncation stability of the decoder). -/
theorem cps_slice (text : List Nat) : ∀ k s e, e - s ≤ k → chain text s e →
    e ≤ text.length → utf8_codepoints (byte_slice text s e) = cps_between text s e := by
  intro k
  induction k with
  | zero =>
    intro s e hk hc he
    have hse := chain_le hc
    have heq : s = e := by omega
    subst heq
    rw [show byte_slice text s s = ([] : List Nat) from by simp [byte_slice]]
    rw [show cps_between text s s = ([] : List Nat) from by
      rw [cps_between, dif_neg (by omega)]]
    rw [utf8_codepoints]
    simp
  | succ n ih =>
    intro s e hk hc he
    rcases chain_head hc with hse | ⟨hs, hc2⟩
    · subst hse
      rw [show byte_slice text s s = ([] : List Nat) from by simp [byte_slice]]
      rw [show cps_between text s s = ([] : List Nat) from by
        rw [cps_between, dif_neg (by omega)]]
      rw [utf8_codepoints]
      simp
    · have hlen := dec_len_pos hs
      have hnext := chain_le hc2
      have hslt : s < e := by omega
      have hsliceN : (byte_slice text s e).length = e - s := by
        rw [byte_slice_length]
        omega
      have hne : byte_slice text s e ≠ [] := by
        intro h0
        rw [h0] at hsliceN
        simp at hsliceN
        omega
      have hdec : utf8_decode_one (byte_slice text s e) = utf8_decode_one (text.drop s) := by
        rw [byte_slice]
        apply utf8_decode_take
        have : 1 ≤ dec_len text s := hlen
        simp only [dec_len] at *
        omega
      have hz : ¬((utf8_decode_one (text.drop s)).2 = 0) := by
        have : 1 ≤ dec_len text s := hlen
        simp only [dec_len] at this
        omega
      rw [utf8_codepoints, dif_neg hne, hdec, dif_neg hz]
      rw [cps_between, dif_pos hslt, dif_neg (by omega)]
      congr 1
      have hdrop : (byte_slice text s e).drop (dec_len text s) =
          byte_slice text (s + dec_len text s) e := by
        rw [byte_slice, byte_slice, List.drop_take, List.drop_drop]
        congr 1
        omega
      rw [show (utf8_decode_one (text.drop s)).2 = dec_len text s from rfl, hdrop]
      exact ih (s + dec_len text s) e (by omega) hc2 he

theorem measure_pen_sum (tr : text_rasterizer)
    (hkern : ∀ a b, tr.get_kerning a b = 0) :
    ∀ cps prev pen, measure_pen tr cps prev pen = pen + advance_sum tr cps := by
  intro cps
  induction cps with
  | nil => intro prev pen; simp [measure_pen, advance_sum]
  | cons cp rest ih =>
    intro prev pen
    rw [measure_pen, ih]
    rw [show advance_sum tr (cp :: rest) =
      (tr.measure_glyph cp).advance_x + advance_sum tr rest from by
        simp [advance_sum]]
    split
    · rw [hkern]
      ring
    · ring

/-- With zero kerning, measured width is the advance sum of the codepoints. -/
theorem measure_text_width (tr : text_rasterizer)
    (hkern : ∀ a b, tr.get_kerning a b = 0) (l : List Nat) :
    (tr.measure_text l).width = advance_sum tr (utf8_codepoints l) := by
  rw [text_rasterizer.measure_text]
  split
  next h =>
    subst h
    rw [show utf8_codepoints [] = ([] : List Nat) from by rw [utf8_codepoints]; simp]
    simp [text_extents.zero, advance_sum]
  next h =>
    simp only
    rw [measure_pen_sum tr hkern]
    ring

/-- flush_line's effect on the line list: trim trailing blanks, skip the
line if empty before or after the trim. -/
def flush_push (text : List Nat) (lines : List (List Nat)) (line_start current : Nat) :
    List (List Nat) :=
  if line_start < current then
    if line_start < trim_end text line_start current then
      lines ++ [byte_slice text line_start (trim_end text line_start current)]
    else lines
  else lines

/-- The while loop of text_renderer::wrap_lines, one call per iteration.
State: byte offsets current / line_start / word_start, accumulated widths,
produced lines. The bytes == 0 break and both exits fall through to the
untrimmed final flush, as in the source. -/
def wrap_loop (tr : text_rasterizer) (text : List Nat) (max_width : ℚ)
    (current line_start word_start : Nat) (line_width word_width : ℚ)
    (lines : List (List Nat)) : List (List Nat) :=
  if hcur : current < text.length then
    if hb : dec_len text current = 0 then
      if line_start < current then lines ++ [byte_slice text line_start current] else lines
    else if dec_cp text current = 10 then
      wrap_loop tr text max_width (current + dec_len text current)
        (current + dec_len text current) (current + dec_len text current) 0 0
        (flush_push text lines line_start (current + dec_len text current))
    else if dec_cp text current = 32 then
      if max_width < line_width + dec_adv tr text current ∧ 0 < line_width then
        if line_start < current + dec_len text current ∧
            current + dec_len text current ≤ current then
          wrap_loop tr text max_width (current + dec_len text current)
            (current + dec_len text current) (current + dec_len text current)
            (0 + dec_adv tr text current) (0 + dec_adv tr text current)
            (flush_push text lines line_start (current + dec_len text current))
        else
          wrap_loop tr text max_width (current + dec_len text current) current
            (current + dec_len text current) (0 + dec_adv tr text current)
            (0 + dec_adv tr text current) (flush_push text lines line_start current)
      else
        wrap_loop tr text max_width (current + dec_len text current) line_start
          (current + dec_len text current) (line_width + dec_adv tr text current)
          (0 + dec_adv tr text current) lines
    else
      if max_width < line_width + dec_adv tr text current ∧ 0 < line_width then
        if line_start < word_start ∧ word_start ≤ current then
          wrap_loop tr text max_width (current + dec_len text current) word_start word_start
            (word_width + dec_adv tr text current) (word_width + dec_adv tr text current)
            (flush_push text lines line_start word_start)
        else
          wrap_loop tr text max_width (current + dec_len text current) current word_start
            (0 + dec_adv tr text current) (word_width + dec_adv tr text current)
            (flush_push text lines line_start current)
      else
        wrap_loop tr text max_width (current + dec_len text current) line_start word_start
          (line_width + dec_adv tr text current) (word_width + dec_adv tr text current)
          lines
  else if line_start < current then lines ++ [byte_slice text line_start current] else lines
termination_by text.length - current
decreasing_by all_goals omega

/-- Embedding of text_renderer::wrap_lines. -/
def text_renderer.wrap_lines (tr : text_rasterizer) (text : List Nat) (max_width : ℚ) :
    List (List Nat) :=
  if text = [] ∨ max_width ≤ 0 then []
  else wrap_loop tr text max_width 0 0 0 0 0 []

/-- Line contents after the trailing-newline byte a newline-flushed line
keeps (the final and wrap flushes never include one). -/
def strip_nl (l : List Nat) : List Nat :=
  if l.getLast? = some 10 then l.dropLast else l

/-- What C5 grants a produced line: measured width within the wrap width,
or no word boundary inside it (an unbreakable word), or exactly the
single space the wrap leaves when a blank itself overflows the line. -/
def good_line (tr : text_rasterizer) (W : ℚ) (l : List Nat) : Prop :=
  (tr.measure_text (strip_nl l)).width ≤ W ∨ 32 ∉ strip_nl l ∨ strip_nl l = [32]

theorem strip_nl_of_no_nl {l : List Nat} (h : 10 ∉ l) : strip_nl l = l := by
  rw [strip_nl]
  split
  next h2 => exact absurd (List.mem_of_mem_getLast? h2) h
  next => rfl

/-- Lines flush_line appends (trim path) are good when the flushed span
satisfies the line invariant. -/
theorem flush_push_good (tr : text_rasterizer) (W : ℚ) (text : List Nat)
    (lines : List (List Nat)) (ls X : Nat)
    (hkern : ∀ a b, tr.get_kerning a b = 0)
    (hadv : ∀ cp, 0 < (tr.measure_glyph cp).advance_x)
    (hlines : ∀ l ∈ lines, good_line tr W l)
    (h0 : chain text 0 ls) (hX0 : chain text 0 X) (hlsX : ls ≤ X) (hXN : X ≤ text.length)
    (hnonl : 10 ∉ byte_slice text ls X)
    (hgood : advance_sum tr (cps_between text ls X) ≤ W ∨ 32 ∉ byte_slice text ls X ∨
      byte_slice text ls X = [32]) :
    ∀ l ∈ flush_push text lines ls X, good_line tr W l := by
  intro l hl
  rw [flush_push] at hl
  by_cases h1 : ls < X
  swap
  · rw [if_neg h1] at hl
    exact hlines l hl
  rw [if_pos h1] at hl
  by_cases h2 : ls < trim_end text ls X
  swap
  · rw [if_neg h2] at hl
    exact hlines l hl
  rw [if_pos h2] at hl
  rcases List.mem_append.mp hl with hml | hme
  · exact hlines l hml
  · have hleq : l = byte_slice text ls (trim_end text ls X) := by simpa using hme
    subst hleq
    have hchain : chain text ls (trim_end text ls X) :=
      trim_end_chain text ls X (chain_connect h0 hX0 hlsX) hXN
    have hee : trim_end text ls X ≤ X := trim_end_le text ls X
    have heN : trim_end text ls X ≤ text.length := by omega
    have hpre := byte_slice_append text ls (trim_end text ls X) X (by omega) hee
    have hnl2 : 10 ∉ byte_slice text ls (trim_end text ls X) := by
      intro hm
      exact hnonl (by rw [hpre]; exact List.mem_append_left _ hm)
    rw [good_line, strip_nl_of_no_nl hnl2]
    rcases hgood with hw | hs | h32
    · left
      rw [measure_text_width tr hkern, cps_slice text (trim_end text ls X - ls) ls
        (trim_end text ls X) (Nat.le_refl _) hchain heN]
      rw [cps_between_append text (trim_end text ls X) X hee ls hchain,
        advance_sum_append] at hw
      have hnn := advance_sum_nonneg tr hadv (cps_between text (trim_end text ls X) X)
      linarith
    · right
      left
      intro hm
      exact hs (by rw [hpre]; exact List.mem_append_left _ hm)
    · exfalso
      have hlenX : (byte_slice text ls X).length = 1 := by rw [h32]; rfl
      rw [byte_slice_length] at hlenX
      have hX1 : X = ls + 1 := by omega
      have hbyte : text.getD ls 0 = 32 := by
        have hg := byte_slice_getD text ls X 0 (by omega) (by omega)
        rw [show ls + 0 = ls from rfl, h32] at hg
        simpa using hg.symm
      have htr : trim_end text ls X = ls := by
        rw [hX1, trim_end, dif_pos ⟨by omega, by rw [show ls + 1 - 1 = ls from rfl]; exact hbyte⟩]
        rw [trim_end, dif_neg (fun hh => absurd hh.1 (by omega))]
        omega
      omega

/-- Lines the newline branch flushes are good: the kept trailing 0x0A
byte blocks the trim and is discounted by strip_nl. -/
theorem flush_push_nl_good (tr : text_rasterizer) (W : ℚ) (text : List Nat)
    (lines : List (List Nat)) (ls cur : Nat)
    (hkern : ∀ a b, tr.get_kerning a b = 0)
    (hlines : ∀ l ∈ lines, good_line tr W l)
    (h0 : chain text 0 ls) (hcur0 : chain text 0 cur) (hlsc : ls ≤ cur)
    (hcN : cur < text.length) (hnl : dec_cp text cur = 10)
    (hgood : advance_sum tr (cps_between text ls cur) ≤ W ∨ 32 ∉ byte_slice text ls cur ∨
      byte_slice text ls cur = [32]) :
    ∀ l ∈ flush_push text lines ls (cur + dec_len text cur), good_line tr W l := by
  have hasc := dec_ascii_cp text cur hcN (by rw [hnl]; norm_num)
  have hlen1 : dec_len text cur = 1 := hasc.1
  have hbyte : text.getD cur 0 = 10 := by rw [hasc.2, hnl]
  intro l hl
  rw [hlen1, flush_push, if_pos (by omega : ls < cur + 1)] at hl
  have htrim : trim_end text ls (cur + 1) = cur + 1 := by
    rw [trim_end, dif_neg]
    intro hh
    obtain ⟨-, hh2⟩ := hh
    rw [show cur + 1 - 1 = cur from rfl, hbyte] at hh2
    omega
  rw [htrim, if_pos (by omega : ls < cur + 1)] at hl
  rcases List.mem_append.mp hl with hml | hme
  · exact hlines l hml
  · have hleq : l = byte_slice text ls (cur + 1) := by simpa using hme
    subst hleq
    have hsplit : byte_slice text ls (cur + 1) = byte_slice text ls cur ++ [10] := by
      rw [byte_slice_append text ls cur (cur + 1) hlsc (by omega)]
      congr 1
      have hdne : text.drop cur ≠ [] := by
        intro hd0
        have := congrArg List.length hd0
        simp at this
        omega
      obtain ⟨a, t, hat⟩ := List.exists_cons_of_ne_nil hdne
      have ha : a = text.getD cur 0 := by
        have hg := drop_getD text cur 0
        rw [hat] at hg
        simpa using hg
      rw [byte_slice, show cur + 1 - cur = 1 from by omega, hat, ha, hbyte]
      simp
    rw [good_line, hsplit, strip_nl, if_pos (List.getLast?_concat _), List.dropLast_concat]
    rcases hgood with hw | hs | h32
    · left
      rw [measure_text_width tr hkern, cps_slice text (cur - ls) ls cur (Nat.le_refl _)
        (chain_connect h0 hcur0 hlsc) (by omega)]
      exact hw
    · right
      left
      exact hs
    · right
      right
      exact h32

theorem byte_slice_nil (text : List Nat) (s : Nat) : byte_slice text s s = [] := by
  simp [byte_slice]

theorem cps_between_nil (text : List Nat) (s : Nat) : cps_between text s s = [] := by
  rw [cps_between, dif_neg (lt_irrefl s)]

theorem advance_sum_nil (tr : text_rasterizer) : advance_sum tr [] = 0 := by
  simp [advance_sum]

theorem advance_sum_single (tr : text_rasterizer) (cp : Nat) :
    advance_sum tr [cp] = (tr.measure_glyph cp).advance_x := by
  simp [advance_sum]

theorem byte_slice_one (text : List Nat) (c : Nat) (hc : c < text.length) :
    byte_slice text c (c + 1) = [text.getD c 0] := by
  have hdne : text.drop c ≠ [] := by
    intro hd0
    have := congrArg List.length hd0
    simp at this
    omega
  obtain ⟨a, t, hat⟩ := List.exists_cons_of_ne_nil hdne
  have ha : a = text.getD c 0 := by
    have hg := drop_getD text c 0
    rw [hat] at hg
    simpa using hg
  rw [byte_slice, show c + 1 - c = 1 from by omega, hat, ha]
  simp

/-- The untrimmed final flush of wrap_lines produces a good line from the
line invariant. -/
theorem final_flush_good (tr : text_rasterizer) (W : ℚ) (text : List Nat)
    (lines : List (List Nat)) (ls cur : Nat)
    (hkern : ∀ a b, tr.get_kerning a b = 0)
    (hlines : ∀ l ∈ lines, good_line tr W l)
    (hls : chain text 0 ls) (hcur : chain text 0 cur) (hlc : ls ≤ cur)
    (hcN : cur ≤ text.length)
    (hnonl : 10 ∉ byte_slice text ls cur)
    (hgood : advance_sum tr (cps_between text ls cur) ≤ W ∨ 32 ∉ byte_slice text ls cur ∨
      byte_slice text ls cur = [32]) :
    ∀ l ∈ (if ls < cur then lines ++ [byte_slice text ls cur] else lines),
      good_line tr W l := by
  intro l hl
  split at hl
  · rcases List.mem_append.mp hl with hml | hme
    · exact hlines l hml
    · have hleq : l = byte_slice text ls cur := by simpa using hme
      subst hleq
      rw [good_line, strip_nl_of_no_nl hnonl]
      rcases hgood with hw | hs | h32
      · left
        rw [measure_text_width tr hkern,
          cps_slice text (cur - ls) ls cur (Nat.le_refl _) (chain_connect hls hcur hlc) hcN]
        exact hw
      · exact Or.inr (Or.inl hs)
      · exact Or.inr (Or.inr h32)
  · exact hlines l hl

/-- Loop invariant of wrap_lines: all offsets are on the decode orbit,
accumulated widths bound the advance sum of their spans, the open word
holds no blank, the open line holds no newline and is within width, a
word-free overflow, or the single-blank line, and every emitted line is
good. -/
structure wrap_inv (tr : text_rasterizer) (text : List Nat) (W : ℚ)
    (current line_start word_start : Nat) (line_width word_width : ℚ)
    (lines : List (List Nat)) : Prop where
  hls : chain text 0 line_start
  hws : chain text 0 word_start
  hcur : chain text 0 current
  hlc : line_start ≤ current
  hwc : word_start ≤ current
  hlw_lb : advance_sum tr (cps_between text line_start current) ≤ line_width
  hww_lb : advance_sum tr (cps_between text word_start current) ≤ word_width
  hword_nospace : 32 ∉ byte_slice text word_start current
  hline_nonl : 10 ∉ byte_slice text line_start current
  hmain : line_width ≤ W ∨ 32 ∉ byte_slice text line_start current ∨
    byte_slice text line_start current = [32]
  hlw0 : line_width = 0 → line_start = current
  hlines : ∀ l ∈ lines, good_line tr W l

/-- Every line the wrap loop emits from an invariant-respecting state is
good. -/
theorem wrap_loop_good (tr : text_rasterizer) (text : List Nat) (W : ℚ)
    (hadv : ∀ cp, 0 < (tr.measure_glyph cp).advance_x)
    (hkern : ∀ a b, tr.get_kerning a b = 0) :
    ∀ fuel current line_start word_start line_width word_width lines,
      text.length - current ≤ fuel →
      wrap_inv tr text W current line_start word_start line_width word_width lines →
      ∀ l ∈ wrap_loop tr text W current line_start word_start line_width word_width lines,
        good_line tr W l := by
  intro fuel
  induction fuel with
  | zero =>
    intro current line_start word_start line_width word_width lines hfuel inv l hl
    have hcurN : current ≤ text.length := chain_le_len inv.hcur (Nat.zero_le _)
    have hmain_cur : advance_sum tr (cps_between text line_start current) ≤ W ∨
        32 ∉ byte_slice text line_start current ∨
        byte_slice text line_start current = [32] := by
      rcases inv.hmain with h | h | h
      · exact Or.inl (le_trans inv.hlw_lb h)
      · exact Or.inr (Or.inl h)
      · exact Or.inr (Or.inr h)
    rw [wrap_loop, dif_neg (by omega : ¬current < text.length)] at hl
    exact final_flush_good tr W text lines line_start current hkern inv.hlines
      inv.hls inv.hcur inv.hlc hcurN inv.hline_nonl hmain_cur l hl
  | succ f ih =>
    intro current line_start word_start line_width word_width lines hfuel inv l hl
    have hcurN : current ≤ text.length := chain_le_len inv.hcur (Nat.zero_le _)
    have hmain_cur : advance_sum tr (cps_between text line_start current) ≤ W ∨
        32 ∉ byte_slice text line_start current ∨
        byte_slice text line_start current = [32] := by
      rcases inv.hmain with h | h | h
      · exact Or.inl (le_trans inv.hlw_lb h)
      · exact Or.inr (Or.inl h)
      · exact Or.inr (Or.inr h)
    rw [wrap_loop] at hl
    by_cases hcN : current < text.length
    swap
    · rw [dif_neg hcN] at hl
      exact final_flush_good tr W text lines line_start current hkern inv.hlines
        inv.hls inv.hcur inv.hlc hcurN inv.hline_nonl hmain_cur l hl
    rw [dif_pos hcN] at hl
    by_cases hb0 : dec_len text current = 0
    · rw [dif_pos hb0] at hl
      exact final_flush_good tr W text lines line_start current hkern inv.hlines
        inv.hls inv.hcur inv.hlc hcurN inv.hline_nonl hmain_cur l hl
    rw [dif_neg hb0] at hl
    have hlen : 1 ≤ dec_len text current := by omega
    have hnN : current + dec_len text current ≤ text.length := by
      have h3 := utf8_decode_consumed_le (text.drop current)
      simp only [dec_len, List.length_drop] at *
      omega
    have hchain_n : chain text 0 (current + dec_len text current) := inv.hcur.snoc hcN
    have hadvpos : 0 < dec_adv tr text current := hadv _
    have hlw_nn : 0 ≤ line_width := le_trans (advance_sum_nonneg tr hadv _) inv.hlw_lb
    have hww_nn : 0 ≤ word_width := le_trans (advance_sum_nonneg tr hadv _) inv.hww_lb
    have hsnoc_ls : cps_between text line_start (current + dec_len text current) =
        cps_between text line_start current ++ [dec_cp text current] :=
      cps_between_snoc text line_start current inv.hls inv.hcur inv.hlc hcN
    have hsnoc_ws : cps_between text word_start (current + dec_len text current) =
        cps_between text word_start current ++ [dec_cp text current] :=
      cps_between_snoc text word_start current inv.hws inv.hcur inv.hwc hcN
    have hsnoc_cc : cps_between text current (current + dec_len text current) =
        [dec_cp text current] := cps_between_one text current hcN
    have hslice_ls : byte_slice text line_start (current + dec_len text current) =
        byte_slice text line_start current ++
          byte_slice text current (current + dec_len text current) :=
      byte_slice_append text line_start current (current + dec_len text current)
        inv.hlc (by omega)
    have hslice_ws : byte_slice text word_start (current + dec_len text current) =
        byte_slice text word_start current ++
          byte_slice text current (current + dec_len text current) :=
      byte_slice_append text word_start current (current + dec_len text current)
        inv.hwc (by omega)
    by_cases hnl : dec_cp text current = 10
    · rw [if_pos hnl] at hl
      refine ih (current + dec_len text current) (current + dec_len text current)
        (current + dec_len text current) 0 0 _ (by omega)
        ⟨hchain_n, hchain_n, hchain_n, Nat.le_refl _, Nat.le_refl _, ?_, ?_, ?_, ?_, ?_, ?_, ?_⟩
        l hl
      · rw [cps_between_nil, advance_sum_nil]
      · rw [cps_between_nil, advance_sum_nil]
      · rw [byte_slice_nil]
        simp
      · rw [byte_slice_nil]
        simp
      · right
        left
        rw [byte_slice_nil]
        simp
      · intro _
        rfl
      · exact flush_push_nl_good tr W text lines line_start current hkern inv.hlines
          inv.hls inv.hcur inv.hlc hcN hnl hmain_cur
    rw [if_neg hnl] at hl
    by_cases hsp : dec_cp text current = 32
    · rw [if_pos hsp] at hl
      have hasc := dec_ascii_cp text current hcN (by rw [hsp]; norm_num)
      have hl1 : dec_len text current = 1 := hasc.1
      have hby : text.getD current 0 = 32 := by rw [hasc.2, hsp]
      have hunit32 : byte_slice text current (current + dec_len text current) = [32] := by
        rw [hl1, byte_slice_one text current hcN, hby]
      have hunit_nonl : 10 ∉ byte_slice text current (current + dec_len text current) := by
        rw [hunit32]
        simp
      by_cases htrig : W < line_width + dec_adv tr text current ∧ 0 < line_width
      · rw [if_pos htrig,
          if_neg (fun h2 => absurd h2.2 (by omega :
            ¬current + dec_len text current ≤ current))] at hl
        refine ih (current + dec_len text current) current (current + dec_len text current)
          (0 + dec_adv tr text current) (0 + dec_adv tr text current) _ (by omega)
          ⟨inv.hcur, hchain_n, hchain_n, by omega, Nat.le_refl _, ?_, ?_, ?_, ?_, ?_, ?_, ?_⟩
          l hl
        · rw [hsnoc_cc, advance_sum_single, dec_adv]
          linarith
        · rw [cps_between_nil, advance_sum_nil]
          linarith
        · rw [byte_slice_nil]
          simp
        · exact hunit_nonl
        · right
          right
          exact hunit32
        · intro h
          exfalso
          rw [zero_add] at h
          linarith
        · exact flush_push_good tr W text lines line_start current hkern hadv inv.hlines
            inv.hls inv.hcur inv.hlc (le_of_lt hcN) inv.hline_nonl hmain_cur
      · rw [if_neg htrig] at hl
        refine ih (current + dec_len text current) line_start
          (current + dec_len text current) (line_width + dec_adv tr text current)
          (0 + dec_adv tr text current) _ (by omega)
          ⟨inv.hls, hchain_n, hchain_n, le_trans inv.hlc (Nat.le_add_right _ _),
            Nat.le_refl _, ?_, ?_, ?_, ?_, ?_, ?_, inv.hlines⟩ l hl
        · rw [hsnoc_ls, advance_sum_append, advance_sum_single, dec_adv]
          linarith [inv.hlw_lb]
        · rw [cps_between_nil, advance_sum_nil]
          linarith
        · rw [byte_slice_nil]
          simp
        · rw [hslice_ls]
          intro hmem
          rcases List.mem_append.mp hmem with hm1 | hm2
          · exact inv.hline_nonl hm1
          · exact hunit_nonl hm2
        · rcases not_and_or.mp htrig with h | h
          · left
            linarith [not_lt.mp h]
          · have hlsc : line_start = current := inv.hlw0 (by linarith [not_lt.mp h])
            right
            right
            rw [hlsc]
            exact hunit32
        · intro h
          exfalso
          linarith
    rw [if_neg hsp] at hl
    have hunit_nonl : 10 ∉ byte_slice text current (current + dec_len text current) :=
      unit_no_byte text current 10 hcN (by norm_num) hnl
    have hunit_nosp : 32 ∉ byte_slice text current (current + dec_len text current) :=
      unit_no_byte text current 32 hcN (by norm_num) hsp
    by_cases htrig : W < line_width + dec_adv tr text current ∧ 0 < line_width
    · rw [if_pos htrig] at hl
      by_cases h2 : line_start < word_start ∧ word_start ≤ current
      · rw [if_pos h2] at hl
        have hsplit2 : byte_slice text line_start current =
            byte_slice text line_start word_start ++ byte_slice text word_start current :=
          byte_slice_append text line_start word_start current (le_of_lt h2.1) h2.2
        refine ih (current + dec_len text current) word_start word_start
          (word_width + dec_adv tr text current) (word_width + dec_adv tr text current) _
          (by omega)
          ⟨inv.hws, inv.hws, hchain_n, le_trans inv.hwc (Nat.le_add_right _ _),
            le_trans inv.hwc (Nat.le_add_right _ _), ?_, ?_, ?_, ?_, ?_, ?_, ?_⟩
          l hl
        · rw [hsnoc_ws, advance_sum_append, advance_sum_single, dec_adv]
          linarith [inv.hww_lb]
        · rw [hsnoc_ws, advance_sum_append, advance_sum_single, dec_adv]
          linarith [inv.hww_lb]
        · rw [hslice_ws]
          intro hmem
          rcases List.mem_append.mp hmem with hm1 | hm2
          · exact inv.hword_nospace hm1
          · exact hunit_nosp hm2
        · rw [hslice_ws]
          intro hmem
          rcases List.mem_append.mp hmem with hm1 | hm2
          · exact inv.hline_nonl (by rw [hsplit2]; exact List.mem_append_right _ hm1)
          · exact hunit_nonl hm2
        · right
          left
          rw [hslice_ws]
          intro hmem
          rcases List.mem_append.mp hmem with hm1 | hm2
          · exact inv.hword_nospace hm1
          · exact hunit_nosp hm2
        · intro h
          exfalso
          linarith
        · refine flush_push_good tr W text lines line_start word_start hkern hadv inv.hlines
            inv.hls inv.hws (le_of_lt h2.1) (by omega) ?_ ?_
          · intro hm
            exact inv.hline_nonl (by rw [hsplit2]; exact List.mem_append_left _ hm)
          · rcases inv.hmain with hW1 | hno | hs32
            · left
              have hcps := cps_between_append text word_start current h2.2 line_start
                (chain_connect inv.hls inv.hws (le_of_lt h2.1))
              have hsum := inv.hlw_lb
              rw [hcps, advance_sum_append] at hsum
              have hnn := advance_sum_nonneg tr hadv (cps_between text word_start current)
              linarith
            · right
              left
              intro hm
              exact hno (by rw [hsplit2]; exact List.mem_append_left _ hm)
            · right
              right
              have hlen1 : (byte_slice text line_start current).length = 1 := by
                rw [hs32]
                rfl
              rw [byte_slice_length] at hlen1
              have hws_c : word_start = current := by omega
              rw [show word_start = current from hws_c]
              exact hs32
      · rw [if_neg h2] at hl
        refine ih (current + dec_len text current) current word_start
          (0 + dec_adv tr text current) (word_width + dec_adv tr text current) _ (by omega)
          ⟨inv.hcur, inv.hws, hchain_n, Nat.le_add_right _ _,
            le_trans inv.hwc (Nat.le_add_right _ _), ?_, ?_, ?_, ?_, ?_, ?_, ?_⟩
          l hl
        · rw [hsnoc_cc, advance_sum_single, dec_adv]
          linarith
        · rw [hsnoc_ws, advance_sum_append, advance_sum_single, dec_adv]
          linarith [inv.hww_lb]
        · rw [hslice_ws]
          intro hmem
          rcases List.mem_append.mp hmem with hm1 | hm2
          · exact inv.hword_nospace hm1
          · exact hunit_nosp hm2
        · exact hunit_nonl
        · right
          left
          exact hunit_nosp
        · intro h
          exfalso
          rw [zero_add] at h
          linarith
        · exact flush_push_good tr W text lines line_start current hkern hadv inv.hlines
            inv.hls inv.hcur inv.hlc (le_of_lt hcN) inv.hline_nonl hmain_cur
    · rw [if_neg htrig] at hl
      refine ih (current + dec_len text current) line_start word_start
        (line_width + dec_adv tr text current) (word_width + dec_adv tr text current) _
        (by omega)
        ⟨inv.hls, inv.hws, hchain_n, le_trans inv.hlc (Nat.le_add_right _ _),
          le_trans inv.hwc (Nat.le_add_right _ _), ?_, ?_, ?_, ?_, ?_, ?_, inv.hlines⟩
        l hl
      · rw [hsnoc_ls, advance_sum_append, advance_sum_single, dec_adv]
        linarith [inv.hlw_lb]
      · rw [hsnoc_ws, advance_sum_append, advance_sum_single, dec_adv]
        linarith [inv.hww_lb]
      · rw [hslice_ws]
        intro hmem
        rcases List.mem_append.mp hmem with hm1 | hm2
        · exact inv.hword_nospace hm1
        · exact hunit_nosp hm2
      · rw [hslice_ls]
        intro hmem
        rcases List.mem_append.mp hmem with hm1 | hm2
        · exact inv.hline_nonl hm1
        · exact hunit_nonl hm2
      · rcases not_and_or.mp htrig with h | h
        · left
          linarith [not_lt.mp h]
        · have hlsc : line_start = current := inv.hlw0 (by linarith [not_lt.mp h])
          right
          left
          rw [hlsc]
          exact hunit_nosp
      · intro h
        exfalso
        linarith

/-- Outline font whose every glyph advances by 2 with no kerning, for
exercising the wrap on concrete inputs. -/
def c5_font : ttf_font :=
  { has_glyph := fun _ => true,
    glyph_metrics_fn := fun _ _ =>
      some { advance_x := 2, bearing_x := 0, bearing_y := 0, width := 1, height := 1 },
    kerning := fun _ _ _ => 0,
    metrics_fn := fun _ => { ascent := 8, descent := -2, line_gap := 0 } }

def c5_tr : text_rasterizer := { m_source := font_source.ttf_ref c5_font, m_size := 10 }

theorem c5_adv (cp : Nat) : (c5_tr.measure_glyph cp).advance_x = 2 := rfl

theorem c5_kern (a b : Nat) : c5_tr.get_kerning a b = 0 := rfl

/-- C5 counterexample input: a lone space wider than max_width is emitted
as a line of its own whose measured width exceeds max_width. -/
theorem wrap_lines_counterexample :
    text_renderer.wrap_lines c5_tr [32] 1 = [[32]] ∧
      1 < (c5_tr.measure_text [32]).width ∧ (32 : Nat) ∈ ([32] : List Nat) := by
  refine ⟨?_, ?_, by simp⟩
  · rw [text_renderer.wrap_lines,
      if_neg (show ¬(([32] : List Nat) = [] ∨ (1 : ℚ) ≤ 0) from by
        push_neg
        exact ⟨by decide, by norm_num⟩)]
    rw [wrap_loop, dif_pos (show (0 : Nat) < ([32] : List Nat).length from by decide),
      dif_neg (show ¬dec_len [32] 0 = 0 from by decide),
      if_neg (show ¬dec_cp [32] 0 = 10 from by decide),
      if_pos (show dec_cp [32] 0 = 32 from by decide),
      if_neg (show ¬((1 : ℚ) < 0 + dec_adv c5_tr [32] 0 ∧ (0 : ℚ) < 0) from
        fun h => absurd h.2 (lt_irrefl 0))]
    rw [show (0 : Nat) + dec_len [32] 0 = 1 from by decide]
    rw [wrap_loop, dif_neg (show ¬(1 : Nat) < ([32] : List Nat).length from by decide),
      if_pos (show (0 : Nat) < 1 from by decide)]
    decide
  · have hcps : utf8_codepoints [32] = [32] := by
      rw [utf8_codepoints, dif_neg (show ¬([32] : List Nat) = [] from by decide),
        dif_neg (show ¬(utf8_decode_one [32]).2 = 0 from by decide)]
      rw [show (utf8_decode_one [32]).1 = 32 from by decide,
        show ([32] : List Nat).drop (utf8_decode_one [32]).2 = [] from by decide]
      rw [utf8_codepoints, dif_pos rfl]
    rw [text_rasterizer.measure_text,
      if_neg (show ¬([32] : List Nat) = [] from by decide)]
    simp only
    rw [hcps, measure_pen, measure_pen]
    rw [if_neg (show ¬(0 : Nat) ≠ 0 from by decide)]
    rw [c5_adv]
    norm_num

/-- C5 (amended): with positive glyph advances and zero kerning, every line
wrap_lines emits, after discounting the trailing newline byte a
newline-flushed line keeps, either measures within max_width, or contains
no blank at all (an unbreakable word the loop hard-cuts), or is exactly
the single blank left when a space itself overflows the line width. The
unqualified claim fails: a lone space wider than max_width is emitted as
an over-wide line that is not a word. -/
theorem wrap_lines_width (tr : text_rasterizer) (text : List Nat) (W : ℚ)
    (hadv : ∀ cp, 0 < (tr.measure_glyph cp).advance_x)
    (hkern : ∀ a b, tr.get_kerning a b = 0) :
    ∀ l ∈ text_renderer.wrap_lines tr text W,
      (tr.measure_text (strip_nl l)).width ≤ W ∨ 32 ∉ strip_nl l ∨ strip_nl l = [32] := by
  intro l hl
  rw [text_renderer.wrap_lines] at hl
  split at hl
  · simp at hl
  · have h0 : wrap_inv tr text W 0 0 0 0 0 [] :=
      ⟨chain.refl 0, chain.refl 0, chain.refl 0, Nat.le_refl 0, Nat.le_refl 0,
        by rw [cps_between_nil, advance_sum_nil],
        by rw [cps_between_nil, advance_sum_nil],
        by rw [byte_slice_nil]; simp,
        by rw [byte_slice_nil]; simp,
        Or.inr (Or.inl (by rw [byte_slice_nil]; simp)),
        fun _ => rfl,
        by intro l2 hl2; simp at hl2⟩
    have hg := wrap_loop_good tr text W hadv hkern text.length 0 0 0 0 0 []
      (by omega) h0 l hl
    rw [good_line] at hg
    exact hg

theorem wrap_lines_width_witness :
    (c5_tr.measure_text (strip_nl [121])).width ≤ 3 ∨ 32 ∉ strip_nl [121] ∨
      strip_nl [121] = [32] := by
  have hcomp : text_renderer.wrap_lines c5_tr [121] 3 = [[121]] := by
    rw [text_renderer.wrap_lines,
      if_neg (show ¬(([121] : List Nat) = [] ∨ (3 : ℚ) ≤ 0) from by
        push_neg
        exact ⟨by decide, by norm_num⟩)]
    rw [wrap_loop, dif_pos (show (0 : Nat) < ([121] : List Nat).length from by decide),
      dif_neg (show ¬dec_len [121] 0 = 0 from by decide),
      if_neg (show ¬dec_cp [121] 0 = 10 from by decide),
      if_neg (show ¬dec_cp [121] 0 = 32 from by decide),
      if_neg (show ¬((3 : ℚ) < 0 + dec_adv c5_tr [121] 0 ∧ (0 : ℚ) < 0) from
        fun h => absurd h.2 (lt_irrefl 0))]
    rw [show (0 : Nat) + dec_len [121] 0 = 1 from by decide]
    rw [wrap_loop, dif_neg (show ¬(1 : Nat) < ([121] : List Nat).length from by decide),
      if_pos (show (0 : Nat) < 1 from by decide)]
    decide
  exact wrap_lines_width c5_tr [121] 3 (fun cp => by rw [c5_adv]; norm_num)
    (fun a b => c5_kern a b) [121] (by rw [hcomp]; simp)

end OnyxFont
